import Mathlib

/-!
Verification of the URL extraction-and-classification engine (`urls.py`).

Python strings are modelled as `List Char` (`PyStr`).  The relevant parts of
CPython 3.11's `urllib.parse` (`urlsplit`, `urlparse`, `urlunsplit`,
`urlunparse`, `_splitparams`, `_splitnetloc`) are embedded directly from the
stdlib source, since `normalize_url` and `classify_github_url` are thin
wrappers around them.  Modelling notes:

* Character predicates (`str.lower`, `str.isalpha`, regex `\s`, `\w`) are
  modelled on their ASCII behaviour.  (`url[0].isalpha()` is guarded by
  `url[0].isascii()` in the stdlib source, so that one is exact.)
* `_checknetloc`'s NFKC-based `ValueError` for certain non-ASCII netlocs and
  `_check_bracketed_host`'s validation of a bracket-balanced IPv6/IPvFuture
  host are not modelled (they concern exotic inputs only); the mismatched
  bracket `ValueError` in `urlsplit` is modelled exactly.
* Python exceptions are modelled with `Except PyExc`; a `try/except` around a
  call is a `match` on that result.
-/

abbrev PyStr := List Char

deriving instance DecidableEq for Except

/-- Python exception classes that the embedded code can raise. -/
inductive PyExc where
  | valueError
  | typeError
deriving DecidableEq, Repr

/-- Characters valid in scheme names (`scheme_chars` in `urllib.parse`):
ASCII letters, digits and `+-.`. -/
def schemeChar (c : Char) : Bool :=
  c.isAlpha || c.isDigit || c = '+' || c = '-' || c = '.'

/-- `url[0].isascii() and url[0].isalpha()`: an ASCII letter. -/
def asciiAlpha (c : Char) : Bool := c.isAlpha

/-- Members of `_WHATWG_C0_CONTROL_OR_SPACE` (code points 0 through 0x20). -/
def isC0OrSpace (c : Char) : Bool := c.val ≤ 32

/-- Members of `_UNSAFE_URL_BYTES_TO_REMOVE` (tab, CR, LF). -/
def isTabCrLf (c : Char) : Bool := c.val = 9 || c.val = 13 || c.val = 10

/-- A character that does not terminate the netloc in `_splitnetloc`
(the delimiters are `/?#`). -/
def netlocChar (c : Char) : Bool := !(c = '/' || c = '?' || c = '#')

/-- Python `str.lower`, restricted to its ASCII behaviour. -/
def pyLower (s : PyStr) : PyStr := s.map Char.toLower

/-- Python `s.split(c, 1)`: the part before the first occurrence of `c` and
the part after it.  When `c` does not occur, returns `(s, [])`; the embedded
code only reads the second component when an occurrence exists, matching the
`'#' in url` guards of `urlsplit`. -/
def splitFirst (p : Char) : PyStr → PyStr × PyStr
  | [] => ([], [])
  | c :: cs =>
    if c = p then ([], cs)
    else
      let r := splitFirst p cs
      (c :: r.1, r.2)

/-- Index of the first occurrence of a character (Python `str.find`, with
`none` for `-1`). -/
def findCharIdx (p : Char) : PyStr → Option Nat
  | [] => none
  | c :: cs => if c = p then some 0 else (findCharIdx p cs).map (· + 1)

/-- The result tuple of `urlsplit`. -/
structure SplitResult where
  scheme : PyStr
  netloc : PyStr
  path : PyStr
  query : PyStr
  fragment : PyStr
deriving DecidableEq, Repr

/-- The result tuple of `urlparse` (adds `params`). -/
structure ParseResult where
  scheme : PyStr
  netloc : PyStr
  path : PyStr
  params : PyStr
  query : PyStr
  fragment : PyStr
deriving DecidableEq, Repr

def litFtp : PyStr := "ftp".toList
def litHdl : PyStr := "hdl".toList
def litProspero : PyStr := "prospero".toList
def litHttp : PyStr := "http".toList
def litImap : PyStr := "imap".toList
def litHttps : PyStr := "https".toList
def litShttp : PyStr := "shttp".toList
def litRtsp : PyStr := "rtsp".toList
def litRtsps : PyStr := "rtsps".toList
def litRtspu : PyStr := "rtspu".toList
def litSip : PyStr := "sip".toList
def litSips : PyStr := "sips".toList
def litMms : PyStr := "mms".toList
def litSftp : PyStr := "sftp".toList
def litTel : PyStr := "tel".toList
def litGopher : PyStr := "gopher".toList
def litNntp : PyStr := "nntp".toList
def litTelnet : PyStr := "telnet".toList
def litWais : PyStr := "wais".toList
def litFile : PyStr := "file".toList
def litSnews : PyStr := "snews".toList
def litRsync : PyStr := "rsync".toList
def litSvn : PyStr := "svn".toList
def litSvnSsh : PyStr := "svn+ssh".toList
def litNfs : PyStr := "nfs".toList
def litGit : PyStr := "git".toList
def litGitSsh : PyStr := "git+ssh".toList
def litWs : PyStr := "ws".toList
def litWss : PyStr := "wss".toList

/-- `urllib.parse.uses_params` (CPython 3.11.6). -/
def uses_params : List PyStr :=
  [ [], litFtp, litHdl, litProspero, litHttp, litImap, litHttps, litShttp,
    litRtsp, litRtsps, litRtspu, litSip, litSips, litMms, litSftp, litTel ]

/-- `urllib.parse.uses_netloc` (CPython 3.11.6). -/
def uses_netloc : List PyStr :=
  [ [], litFtp, litHttp, litGopher, litNntp, litTelnet, litImap, litWais,
    litFile, litMms, litHttps, litShttp, litSnews, litProspero, litRtsp,
    litRtsps, litRtspu, litRsync, litSvn, litSvnSsh, litSftp, litNfs,
    litGit, litGitSsh, litWs, litWss ]

/-- The scheme-extraction step of `urlsplit`: position of the first `':'`
when it delimits a syntactically valid scheme, else `none`. -/
def schemeSplitIdx (w : PyStr) : Option Nat :=
  match findCharIdx ':' w with
  | some i =>
    if 0 < i ∧ asciiAlpha (w.headD ' ') ∧ (w.take i).all schemeChar
    then some i else none
  | none => none

/-- The part of `urlsplit` after scheme extraction: netloc split (with the
mismatched-bracket `ValueError`), fragment split, query split. -/
def urlsplitAfterScheme (scheme rest : PyStr) : Except PyExc SplitResult :=
  if rest.take 2 = ['/', '/'] then
    let netloc := (rest.drop 2).takeWhile netlocChar
    let after := (rest.drop 2).dropWhile netlocChar
    if ('[' ∈ netloc ∧ ']' ∉ netloc) ∨ (']' ∈ netloc ∧ '[' ∉ netloc) then
      .error .valueError
    else
      let pf := splitFirst '#' after
      let pq := splitFirst '?' pf.1
      .ok ⟨scheme, netloc, pq.1, pq.2, pf.2⟩
  else
    let pf := splitFirst '#' rest
    let pq := splitFirst '?' pf.1
    .ok ⟨scheme, [], pq.1, pq.2, pf.2⟩

/-- `urlsplit` after the WHATWG lstrip and unsafe-byte removal (the part of
the function that operates on the cleaned string). -/
def urlsplitCore (w : PyStr) : Except PyExc SplitResult :=
  match schemeSplitIdx w with
  | some i => urlsplitAfterScheme ((w.take i).map Char.toLower) (w.drop (i + 1))
  | none => urlsplitAfterScheme [] w

/-- `urllib.parse.urlsplit` (str input, default `scheme=''`,
`allow_fragments=True`). -/
def pyUrlsplit (url : PyStr) : Except PyExc SplitResult :=
  urlsplitCore ((url.dropWhile isC0OrSpace).filter (fun c => !isTabCrLf c))

/-- `urllib.parse._splitparams`.  When the string has no `/` and no `;`,
Python computes `url.find(';') == -1` and returns `url[:-1], url[0:]`;
that branch is unreachable from `urlparse`, which guards on `';' in url`,
but it is reproduced faithfully. -/
def splitparams (url : PyStr) : PyStr × PyStr :=
  if '/' ∈ url then
    let b := (url.reverse.takeWhile (fun c => c ≠ '/')).reverse
    let a := url.take (url.length - b.length - 1)
    match findCharIdx ';' b with
    | none => (url, [])
    | some j => (a ++ '/' :: b.take j, b.drop (j + 1))
  else
    match findCharIdx ';' url with
    | none => (url.dropLast, url)
    | some j => (url.take j, url.drop (j + 1))

/-- `urllib.parse.urlparse` (str input, defaults). -/
def pyUrlparse (url : PyStr) : Except PyExc ParseResult :=
  match pyUrlsplit url with
  | .error e => .error e
  | .ok s =>
    if s.scheme ∈ uses_params ∧ ';' ∈ s.path then
      let pp := splitparams s.path
      .ok ⟨s.scheme, s.netloc, pp.1, pp.2, s.query, s.fragment⟩
    else
      .ok ⟨s.scheme, s.netloc, s.path, [], s.query, s.fragment⟩

/-- `urllib.parse.urlunsplit` (CPython 3.11.6). -/
def pyUrlunsplit (scheme netloc url query fragment : PyStr) : PyStr :=
  let url :=
    if netloc ≠ [] ∨ (scheme ≠ [] ∧ scheme ∈ uses_netloc ∧ url.take 2 ≠ ['/', '/']) then
      '/' :: '/' :: netloc ++ (if url ≠ [] ∧ url.take 1 ≠ ['/'] then '/' :: url else url)
    else url
  let url := if scheme ≠ [] then scheme ++ ':' :: url else url
  let url := if query ≠ [] then url ++ '?' :: query else url
  if fragment ≠ [] then url ++ '#' :: fragment else url

/-- `urllib.parse.urlunparse`. -/
def pyUrlunparse (scheme netloc url params query fragment : PyStr) : PyStr :=
  let url := if params ≠ [] then url ++ ';' :: params else url
  pyUrlunsplit scheme netloc url query fragment

def litPort80 : PyStr := ":80".toList
def litPort443 : PyStr := ":443".toList

/-- Python `s.endswith(suf)`. -/
def pyEndsWith (s suf : PyStr) : Bool := s.reverse.take suf.length = suf.reverse

/-- `s.rsplit(':', 1)[0]`: everything before the last `':'` (the whole
string when there is no `':'`). -/
def beforeLastColon (s : PyStr) : PyStr :=
  if ':' ∈ s then ((splitFirst ':' s.reverse).2).reverse else s

/-- `s.rstrip('/')`. -/
def rstripSlash (s : PyStr) : PyStr := (s.reverse.dropWhile (fun c => c = '/')).reverse

/-- The scheme computed by `normalize_url`: `p.scheme.lower()`. -/
def norm_scheme (p : ParseResult) : PyStr := pyLower p.scheme

/-- The netloc computed by `normalize_url`: lower-cased, with an explicit
default port (`:80` for http, `:443` for https) stripped via
`netloc.rsplit(':', 1)[0]`. -/
def norm_netloc (p : ParseResult) : PyStr :=
  let n := pyLower p.netloc
  if (norm_scheme p = litHttp ∧ pyEndsWith n litPort80) ∨
     (norm_scheme p = litHttps ∧ pyEndsWith n litPort443) then
    beforeLastColon n
  else n

/-- The path computed by `normalize_url`: `p.path.rstrip('/') or '/'`. -/
def norm_path (p : ParseResult) : PyStr :=
  let t := rstripSlash p.path
  if t = [] then ['/'] else t

/-- `normalize_url` from `urls.py`: on any exception from parsing, the
original string is returned unchanged. -/
def normalize_url (url : PyStr) : PyStr :=
  match pyUrlparse url with
  | .error _ => url
  | .ok p => pyUrlunparse (norm_scheme p) (norm_netloc p) (norm_path p) [] p.query []

def litRawHost : PyStr := "raw.githubusercontent.com".toList
def litDotGit : PyStr := ".git".toList
def litIssuesSeg : PyStr := "/issues/".toList
def litPullSeg : PyStr := "/pull/".toList
def litPullsSeg : PyStr := "/pulls/".toList
def litReleasesSeg : PyStr := "/releases".toList
def litRepo : PyStr := "repo".toList
def litIssue : PyStr := "issue".toList
def litPull : PyStr := "pull".toList
def litRelease : PyStr := "release".toList
def litRaw : PyStr := "raw".toList
def litClone : PyStr := "clone".toList
def litOther : PyStr := "other".toList

/-- Python `needle in hay` (substring test). -/
def hasSub (hay needle : PyStr) : Bool :=
  match hay with
  | [] => needle.isEmpty
  | _ :: t => (needle.isPrefixOf hay) || hasSub t needle

/-- Python `s.startswith(pre)`. -/
def pyStartsWith (s pre : PyStr) : Bool := pre.isPrefixOf s

/-- `path.split('/')` (all pieces, empty ones included). -/
def splitAllSlash : PyStr → List PyStr
  | [] => [[]]
  | c :: cs =>
    if c = '/' then [] :: splitAllSlash cs
    else
      match splitAllSlash cs with
      | h :: t => (c :: h) :: t
      | [] => [[c]]

/-- The seven category labels of `git_urls_classified`. -/
def sevenCats : List PyStr :=
  [ litRepo, litIssue, litPull, litRelease, litRaw, litClone, litOther ]

/-- `classify_github_url` from `urls.py`. -/
def classify_github_url (url : PyStr) : PyStr :=
  match pyUrlparse url with
  | .error _ => litOther
  | .ok p =>
    let path := pyLower p.path
    if pyStartsWith p.netloc litRawHost then litRaw
    else if pyEndsWith url litDotGit then litClone
    else if hasSub path litIssuesSeg then litIssue
    else if hasSub path litPullSeg || hasSub path litPullsSeg then litPull
    else if hasSub path litReleasesSeg then litRelease
    else if 2 ≤ ((splitAllSlash path).filter (fun x => x ≠ [])).length then litRepo
    else litOther

/-!
The tokenizer.  `URL_RE` is

  `(https?://[^\s<>"\']+|\bwww\.[^\s<>"\']+\b|\b[^\s<>"\']+\.(com|net|org)[^\s<>"\']*)`

and the code calls `URL_RE.findall(text)`.  Because the pattern contains TWO
capture groups, `findall` returns a list of 2-tuples `(group1, group2)`, not
a list of matched substrings.  The matcher below implements the pattern with
Python's leftmost-first-alternative semantics and greedy backtracking; `\s`
and `\w` are modelled on their ASCII behaviour.  Bytes are decoded with
`errors='ignore'` before matching; the embedding takes the decoded text as
input.
-/

/-- Python regex `\s`, ASCII part. -/
def pyWhitespace (c : Char) : Bool :=
  c.val = 32 || c.val = 9 || c.val = 10 || c.val = 13 || c.val = 11 || c.val = 12

/-- A character matched by `[^\s<>"\']` (the quote characters are written by
code point: 34 is the double quote, 39 the apostrophe). -/
def urlChar (c : Char) : Bool :=
  !(pyWhitespace c || c = '<' || c = '>' || c.val = 34 || c.val = 39)

/-- Python regex `\w`, ASCII part. -/
def wordChar (c : Char) : Bool := c.isAlphanum || c = '_'

/-- Word boundary `\b` between two (possibly absent) characters. -/
def boundary (a b : Option Char) : Bool :=
  (match a with | some c => wordChar c | none => false) ≠
  (match b with | some c => wordChar c | none => false)

/-- First alternative `https?://[^\s<>"\']+`: returns the matched characters
and the remaining input. -/
def alt1core : PyStr → PyStr → Option (PyStr × PyStr)
  | pre, ':' :: '/' :: '/' :: r2 =>
    let run := r2.takeWhile urlChar
    if run = [] then none
    else some (pre ++ ':' :: '/' :: '/' :: run, r2.dropWhile urlChar)
  | _, _ => none

def alt1 (l : PyStr) : Option (PyStr × PyStr) :=
  match l with
  | 'h' :: 't' :: 't' :: 'p' :: rest =>
    match rest with
    | 's' :: rest2 =>
      match alt1core ('h' :: 't' :: 't' :: 'p' :: ['s']) rest2 with
      | some r => some r
      | none => alt1core ('h' :: 't' :: 't' :: 'p' :: []) rest
    | _ => alt1core ('h' :: 't' :: 't' :: 'p' :: []) rest
  | _ => none

/-- Backtracking for a trailing `\b` after a greedy `[^\s<>"\']+` run:
given the reversed run and the input after it, drop characters from the end
until the word-boundary holds.  Returns the used part (unreversed) and the
input following it. -/
def shrinkToBoundary : PyStr → PyStr → Option (PyStr × PyStr)
  | [], _ => none
  | c :: cs, after =>
    if boundary (some c) after.head? then some ((c :: cs).reverse, after)
    else shrinkToBoundary cs (c :: after)

/-- Second alternative `\bwww\.[^\s<>"\']+\b`. -/
def alt2 (prev : Option Char) (l : PyStr) : Option (PyStr × PyStr) :=
  match l with
  | 'w' :: 'w' :: 'w' :: '.' :: rest =>
    if boundary prev (some 'w') then
      let run := rest.takeWhile urlChar
      let rest2 := rest.dropWhile urlChar
      match shrinkToBoundary run.reverse rest2 with
      | some (used, after) => some ('w' :: 'w' :: 'w' :: '.' :: used, after)
      | none => none
    else none
  | _ => none

def litCom : PyStr := "com".toList
def litNet : PyStr := "net".toList
def litOrg : PyStr := "org".toList

/-- The `(com|net|org)` group (alternatives tried left to right; their first
characters differ, so at most one can match at a given position). -/
def grpOf (g1 g2 g3 : Char) : Option PyStr :=
  if g1 = 'c' ∧ g2 = 'o' ∧ g3 = 'm' then some litCom
  else if g1 = 'n' ∧ g2 = 'e' ∧ g3 = 't' then some litNet
  else if g1 = 'o' ∧ g2 = 'r' ∧ g3 = 'g' then some litOrg
  else none

/-- Backtracking search for the rightmost `.`(com|net|org) inside the greedy
run of the third alternative, on the REVERSED run.  Returns the matched
group. -/
def alt3Scan : PyStr → Option PyStr
  | [] => none
  | c :: rest =>
    match c :: rest with
    | g3 :: g2 :: g1 :: '.' :: _ :: _ =>
      match grpOf g1 g2 g3 with
      | some g => some g
      | none => alt3Scan rest
    | _ => alt3Scan rest

/-- Third alternative `\b[^\s<>"\']+\.(com|net|org)[^\s<>"\']*`: the whole
maximal run is matched (the trailing `*` is greedy and nothing follows), and
the group is determined by the rightmost viable dot. -/
def alt3 (prev : Option Char) (l : PyStr) : Option (PyStr × PyStr × PyStr) :=
  match l.head? with
  | none => none
  | some c0 =>
    if urlChar c0 ∧ boundary prev (some c0) then
      let run := l.takeWhile urlChar
      match alt3Scan run.reverse with
      | some g => some (run, g, l.dropWhile urlChar)
      | none => none
    else none

/-- The scan loop of `findall`: leftmost match, alternatives in order; each
match contributes the tuple of its two capture groups (group 2 participates
only in the third alternative).  `fuel` bounds the recursion; every step
consumes at least one character, so `length + 1` fuel never runs out. -/
def scanRe : Nat → Option Char → PyStr → List (PyStr × PyStr)
  | 0, _, _ => []
  | _ + 1, _, [] => []
  | fuel + 1, prev, c :: rest =>
    match alt1 (c :: rest) with
    | some (m, r) => (m, []) :: scanRe fuel m.getLast? r
    | none =>
      match alt2 prev (c :: rest) with
      | some (m, r) => (m, []) :: scanRe fuel m.getLast? r
      | none =>
        match alt3 prev (c :: rest) with
        | some (m, g, r) => (m, g) :: scanRe fuel m.getLast? r
        | none => scanRe fuel (some c) rest

/-- `URL_RE.findall(text)`: a list of `(group1, group2)` tuples. -/
def URL_RE_findall (text : PyStr) : List (PyStr × PyStr) :=
  scanRe (text.length + 1) none text

/-- `GITHUB_RE` is `(?i)github\.com`: a case-insensitive substring test. -/
def litGithubCom : PyStr := "github.com".toList

/-- A Python value flowing through the URL pipeline: a string, or one of the
2-tuples produced by `findall`. -/
inductive PyVal where
  | str : PyStr → PyVal
  | tup : PyStr → PyStr → PyVal
deriving DecidableEq, Repr

/-- `normalize_url` applied to a pipeline value.  On a tuple, `urlparse`
raises `TypeError` (its `_decode_args` coercion calls `.decode` on the
tuple), the bare `except` catches it, and the tuple is returned unchanged. -/
def normalize_val : PyVal → PyVal
  | .str s => .str (normalize_url s)
  | .tup a b => .tup a b

/-- `GITHUB_RE.search(u)`.  On a tuple argument the regex engine raises
`TypeError` (`expected string or bytes-like object`); there is no handler in
`handle_file_bytes`. -/
def github_search : PyVal → Except PyExc Bool
  | .str s => .ok (hasSub (pyLower s) litGithubCom)
  | .tup _ _ => .error .typeError

/-- `classify_github_url` applied to a pipeline value (on a tuple, the
`urlparse` call raises, the function's own handler returns `'other'`). -/
def classify_val : PyVal → PyStr
  | .str s => classify_github_url s
  | .tup _ _ => litOther

/-- `extract_urls_from_bytes`, taking the permissively decoded text.  Python
builds a set by iterating the `findall` results; the set is modelled as a
deduplicated list in match order (iteration order of a Python `str`-hash set
is unspecified; the theorems below do not depend on which element comes
first beyond it existing). -/
def extract_urls_from_bytes (text : PyStr) : List PyVal :=
  ((URL_RE_findall text).map (fun gg => normalize_val (.tup gg.1 gg.2))).dedup

/-- The three module-level result collections (`all_urls`, `git_urls`,
`git_urls_classified`).  The dict is modelled as a total function from
category label to bucket; only the seven labels of `sevenCats` are ever
used. -/
@[ext]
structure ScanState where
  all_urls : Finset PyVal
  git_urls : Finset PyVal
  git_urls_classified : PyStr → Finset PyVal

/-- The empty initial state of a scan run. -/
def init_state : ScanState := ⟨∅, ∅, fun _ => ∅⟩

/-- The loop body of `handle_file_bytes` under the lock: add each URL to
`all_urls`; on a hosting match add it to `git_urls` and to its category
bucket.  The second component is the exception escaping the loop, if any
(the `with lock` block releases the lock and propagates it). -/
def handle_urls : ScanState → List PyVal → ScanState × Option PyExc
  | s, [] => (s, none)
  | s, u :: rest =>
    let s1 : ScanState := { s with all_urls := insert u s.all_urls }
    match github_search u with
    | .error e => (s1, some e)
    | .ok false => handle_urls s1 rest
    | .ok true =>
      let cat := classify_val u
      handle_urls
        { s1 with
          git_urls := insert u s1.git_urls,
          git_urls_classified := fun k =>
            if k = cat then insert u (s1.git_urls_classified k)
            else s1.git_urls_classified k }
        rest

/-- `handle_file_bytes` on one member's decoded text: extract, and if the
set is non-empty, merge under the lock. -/
def handle_file_bytes (s : ScanState) (text : PyStr) : ScanState × Option PyExc :=
  let urls := extract_urls_from_bytes text
  if urls = [] then (s, none) else handle_urls s urls

/-- `process_regular_file`: `none` models an unreadable file (the `open` or
`read` raised); any exception from the handler is swallowed by the
function's blanket `except`. -/
def process_regular_file (s : ScanState) (content : Option PyStr) : ScanState :=
  match content with
  | none => s
  | some data => (handle_file_bytes s data).1

/-- `process_zip`: `none` for the whole argument models an unopenable
archive; a `none` entry models a member whose `read` raised.  Each entry has
its own `try/except: continue`. -/
def process_zip (s : ScanState) (entries : Option (List (Option PyStr))) : ScanState :=
  match entries with
  | none => s
  | some es =>
    es.foldl
      (fun st e =>
        match e with
        | none => st
        | some data => (handle_file_bytes st data).1)
      s

/-- A whole scan over a list of regular-file inputs, in the order the
dispatcher completes them. -/
def scan_files (s : ScanState) (files : List (Option PyStr)) : ScanState :=
  files.foldl process_regular_file s

/-- A whole scan over a list of member texts fed through
`handle_file_bytes` (the path every reader variant funnels into). -/
def scan_texts (s : ScanState) (ts : List PyStr) : ScanState :=
  ts.foldl (fun st t => (handle_file_bytes st t).1) s

/-!
Contribution normal form for the aggregator.  Each completed input merges a
fixed triple of sets into the state (the lock makes the whole per-input loop
atomic), which is what makes the final state independent of the order in
which inputs finish.
-/

/-- The contribution of one input: what it unions into each collection. -/
structure Contrib where
  a : Finset PyVal
  g : Finset PyVal
  c : PyStr → Finset PyVal

/-- Merge a contribution into a state (pointwise set union). -/
def mergeC (s : ScanState) (k : Contrib) : ScanState :=
  ⟨s.all_urls ∪ k.a, s.git_urls ∪ k.g,
   fun x => s.git_urls_classified x ∪ k.c x⟩

def emptyContrib : Contrib := ⟨∅, ∅, fun _ => ∅⟩

/-- The contribution of a list of pipeline values, mirroring the loop of
`handle_urls` (including its early stop at the first `TypeError`). -/
def urlsContrib : List PyVal → Contrib
  | [] => emptyContrib
  | u :: rest =>
    match github_search u with
    | .error _ => ⟨{u}, ∅, fun _ => ∅⟩
    | .ok false =>
      let k := urlsContrib rest
      ⟨insert u k.a, k.g, k.c⟩
    | .ok true =>
      let k := urlsContrib rest
      let cat := classify_val u
      ⟨insert u k.a, insert u k.g,
       fun x => if x = cat then insert u (k.c x) else k.c x⟩

/-- The exception (if any) escaping the loop of `handle_urls`. -/
def urlsErr : List PyVal → Option PyExc
  | [] => none
  | u :: rest =>
    match github_search u with
    | .error e => some e
    | .ok _ => urlsErr rest

/-- The contribution of one regular-file input. -/
def fileContrib : Option PyStr → Contrib
  | none => emptyContrib
  | some t => urlsContrib (extract_urls_from_bytes t)

/-- The internal path adjustment of `urlunsplit`: when the netloc branch is
taken, a relative path gets a leading `/`. -/
def unsplitAdjPath (scheme netloc url : PyStr) : PyStr :=
  if netloc ≠ [] ∨ (scheme ≠ [] ∧ scheme ∈ uses_netloc ∧ url.take 2 ≠ ['/', '/']) then
    (if url ≠ [] ∧ url.take 1 ≠ ['/'] then '/' :: url else url)
  else url

/-- The query suffix `urlunsplit` appends. -/
def qpart (q : PyStr) : PyStr := if q = [] then [] else '?' :: q

/-- The path component that re-parsing the output of `normalize_url` yields:
`urlunsplit` prepends a `/` to a relative path when it takes its
netloc branch. -/
def norm_repath (p : ParseResult) : PyStr :=
  unsplitAdjPath (norm_scheme p) (norm_netloc p) (norm_path p)

/-- The text of the end-to-end example input. -/
def c1text : PyStr :=
  "see https://github.com/acme/widgets/issues/12 and http://other.com".toList

def litGhIssue : PyStr := "https://github.com/acme/widgets/issues/12".toList
def litOtherCom : PyStr := "http://other.com".toList
def litOtherComSlash : PyStr := "http://other.com/".toList
def litACom : PyStr := "http://a.com".toList
def litAComSlash : PyStr := "http://a.com/".toList
def litBNet : PyStr := "http://b.net".toList
def litBNetSlash : PyStr := "http://b.net/".toList
def litDoublePort : PyStr := "http://example.com:80:80".toList
def litP80Slash : PyStr := "http://example.com:80/".toList
def litPlainSlash : PyStr := "http://example.com/".toList
def litA2Slash : PyStr := "http://example.com/a//".toList
def litA1Slash : PyStr := "http://example.com/a/".toList
def litANoSlash : PyStr := "http://example.com/a".toList
def litP80A1Slash : PyStr := "http://example.com:80/a/".toList
def litPlainHttps : PyStr := "https://example.com".toList
def litPlainHttpsSlash : PyStr := "https://example.com/".toList
def litPlainNoSlash : PyStr := "http://example.com".toList
def litRawIssues : PyStr := "https://raw.githubusercontent.com/o/r/issues/3".toList
def litRawPlain : PyStr := "https://raw.githubusercontent.com/acme/widgets/main/x.txt".toList
def litBadBracket : PyStr := "http://[::1".toList
def litSemiPath : PyStr := "http://h/a;x/".toList
def litSemiOnce : PyStr := "http://h/a;x".toList
def litSemiTwice : PyStr := "http://h/a".toList

/-- Well-formedness facts that hold of every successful `urlsplit` result;
extracted once and consumed by the idempotence proof. -/
structure SplitShape (r : SplitResult) : Prop where
  lowerScheme : pyLower r.scheme = r.scheme
  alphaHead : r.scheme ≠ [] → asciiAlpha (r.scheme.headD ' ') = true
  schemeChars : r.scheme.all schemeChar = true
  netlocChars : r.netloc.all netlocChar = true
  brackets : ¬(('[' ∈ r.netloc ∧ ']' ∉ r.netloc) ∨ (']' ∈ r.netloc ∧ '[' ∉ r.netloc))
  noQuPath : '?' ∉ r.path
  noHashPath : '#' ∉ r.path
  noHashQuery : '#' ∉ r.query
  tabScheme : ∀ c ∈ r.scheme, isTabCrLf c = false
  tabNetloc : ∀ c ∈ r.netloc, isTabCrLf c = false
  tabPath : ∀ c ∈ r.path, isTabCrLf c = false
  tabQuery : ∀ c ∈ r.query, isTabCrLf c = false
  schemeless : r.scheme = [] → r.netloc = [] →
    (r.path = [] ∨ r.path.headD ' ' = '/') ∨
    ∃ w, schemeSplitIdx w = none ∧ r.path <+: w ∧
      (w ≠ [] → isC0OrSpace (w.headD ' ') = false)

def litExCom : PyStr := "example.com".toList
def litSlashA : PyStr := "/a".toList

def litC4W : PyStr := "http://ex.com/a".toList
def litC4Err : PyStr := "http://[x/a".toList

/-!
Theorems.
-/

/-- Every element produced by the tokenizer stage is one of the 2-tuples of
`findall` (never a plain string): `normalize_url`'s blanket `except` returns
the tuple unchanged. -/
theorem extract_mem_tup (text : PyStr) (v : PyVal)
    (h : v ∈ extract_urls_from_bytes text) : ∃ a b, v = PyVal.tup a b := by
  unfold extract_urls_from_bytes at h
  rw [List.mem_dedup] at h
  obtain ⟨gg, _, rfl⟩ := List.mem_map.mp h
  exact ⟨gg.1, gg.2, rfl⟩

/-- Claim C1 (status: code bug).  On the end-to-end example text the
tokenizer returns tuples, `handle_file_bytes` raises `TypeError` at
`GITHUB_RE.search`, and after processing the file the hosting set and issue
bucket are empty and `all_urls` contains neither of the two URL strings the
claim requires. -/
theorem c1_end_to_end_bug :
    extract_urls_from_bytes c1text = [PyVal.tup litGhIssue [], PyVal.tup litOtherCom []] ∧
    (handle_file_bytes init_state c1text).2 = some PyExc.typeError ∧
    (process_regular_file init_state (some c1text)).git_urls = ∅ ∧
    (process_regular_file init_state (some c1text)).git_urls_classified litIssue = ∅ ∧
    PyVal.str litGhIssue ∉ (process_regular_file init_state (some c1text)).all_urls ∧
    PyVal.str litOtherComSlash ∉ (process_regular_file init_state (some c1text)).all_urls := by
  decide

/-- Claim C2 (status: code bug).  The tokenizer stage never returns string
elements: every element of its result is a `(group1, group2)` tuple, because
`URL_RE` contains two capture groups; concretely on the buffer
`http://a.com` the result is a one-element set holding a tuple. -/
theorem c2_extract_returns_tuples :
    (∀ (text : PyStr) (v : PyVal), v ∈ extract_urls_from_bytes text →
      ∃ a b, v = PyVal.tup a b) ∧
    extract_urls_from_bytes litACom = [PyVal.tup litACom []] :=
  ⟨extract_mem_tup, by decide⟩

/-- Witness for `c2_extract_returns_tuples`. -/
theorem c2_witness :
    PyVal.tup litACom [] ∈ extract_urls_from_bytes litACom ∧
    ∃ a b, PyVal.tup litACom [] = PyVal.tup a b :=
  ⟨by decide, c2_extract_returns_tuples.1 litACom (PyVal.tup litACom []) (by decide)⟩

/-- Claim C6 (status: confirmed).  The raw-content rule is checked first:
any URL whose parsed authority starts with `raw.githubusercontent.com`
classifies as `raw`, even when its path contains an `/issues/` segment. -/
theorem c6_raw_wins_over_issue (url : PyStr) (p : ParseResult)
    (hp : pyUrlparse url = .ok p)
    (hraw : pyStartsWith p.netloc litRawHost = true)
    (_hiss : hasSub (pyLower p.path) litIssuesSeg = true) :
    classify_github_url url = litRaw := by
  unfold classify_github_url
  rw [hp]
  simp [hraw]

/-- Witness for `c6_raw_wins_over_issue`. -/
theorem c6_witness :
    pyUrlparse litRawIssues =
      Except.ok ⟨ litHttps, litRawHost, ( "/o/r/issues/3").toList, [], [], []⟩ ∧
    classify_github_url litRawIssues = litRaw :=
  ⟨by decide,
   c6_raw_wins_over_issue litRawIssues
     ⟨ litHttps, litRawHost, ( "/o/r/issues/3").toList, [], [], []⟩
     (by decide) (by decide) (by decide)⟩

/-- Claim C9 (status: confirmed).  `normalize_url` is a total function and
on every string whose parse raises it returns the original string
unchanged. -/
theorem c9_normalize_fails_soft (u : PyStr) (e : PyExc)
    (h : pyUrlparse u = .error e) : normalize_url u = u := by
  unfold normalize_url
  rw [h]

/-- Witness for `c9_normalize_fails_soft`: `http://[::1` has an unmatched
bracket, so `urlsplit` raises `ValueError`. -/
theorem c9_witness :
    pyUrlparse litBadBracket = Except.error PyExc.valueError ∧
    normalize_url litBadBracket = litBadBracket :=
  ⟨by decide, c9_normalize_fails_soft litBadBracket PyExc.valueError (by decide)⟩

/-- Counterexample to claim C4 as stated: normalization is not idempotent.
`http://example.com:80:80` normalizes to `http://example.com:80/`, which
normalizes again to `http://example.com/`. -/
theorem c4_counterexample :
    normalize_url (normalize_url litDoublePort) ≠ normalize_url litDoublePort ∧
    normalize_url litDoublePort = litP80Slash ∧
    normalize_url litP80Slash = litPlainSlash := by
  decide

/-- Counterexample to claim C7 as stated: the code strips ALL trailing
slashes (`rstrip('/')`), not exactly one: `http://example.com/a//`
normalizes to `http://example.com/a`, not to `http://example.com/a/`. -/
theorem c7_counterexample :
    normalize_url litA2Slash = litANoSlash ∧ litANoSlash ≠ litA1Slash := by
  decide

/-- Claim C8 (status: code bug).  For a zip with one corrupt entry between
two valid entries, no exception escapes (`process_zip` is total) and both
valid entries are processed — but what lands in `all_urls` is the findall
tuples, not the two URL strings the claim requires, and the hosting set
stays empty. -/
theorem c8_zip_resilience_bug :
    (process_zip init_state (some [some litACom, none, some litBNet])).all_urls =
      {PyVal.tup litACom [], PyVal.tup litBNet []} ∧
    (process_zip init_state (some [some litACom, none, some litBNet])).git_urls = ∅ ∧
    PyVal.str litAComSlash ∉
      (process_zip init_state (some [some litACom, none, some litBNet])).all_urls ∧
    PyVal.str litBNetSlash ∉
      (process_zip init_state (some [some litACom, none, some litBNet])).all_urls := by
  decide

/-- Merging the empty contribution is a no-op. -/
theorem mergeC_empty (s : ScanState) : mergeC s emptyContrib = s := by
  ext <;> simp [mergeC, emptyContrib]

/-- The loop of `handle_file_bytes` computes a merge of a contribution that
depends only on the processed list (the essence of order-independence). -/
theorem handle_urls_eq_merge (l : List PyVal) :
    ∀ s : ScanState, handle_urls s l = (mergeC s (urlsContrib l), urlsErr l) := by
  induction l with
  | nil =>
    intro s
    simp [handle_urls, urlsContrib, urlsErr, mergeC_empty]
  | cons u rest ih =>
    intro s
    cases hg : github_search u with
    | error e =>
      simp only [handle_urls, urlsContrib, urlsErr, hg]
      refine Prod.ext ?_ rfl
      apply ScanState.ext
      · ext v; simp [mergeC]; try tauto
      · ext v; simp [mergeC]
      · funext x; ext v; simp [mergeC]
    | ok b =>
      cases b with
      | false =>
        simp only [handle_urls, urlsContrib, urlsErr, hg, ih]
        refine Prod.ext ?_ rfl
        apply ScanState.ext
        · ext v; simp [mergeC]; try tauto
        · ext v; simp [mergeC]
        · funext x; ext v; simp [mergeC]
      | true =>
        simp only [handle_urls, urlsContrib, urlsErr, hg, ih]
        refine Prod.ext ?_ rfl
        apply ScanState.ext
        · ext v; simp [mergeC]; try tauto
        · ext v; simp [mergeC]; try tauto
        · funext x
          by_cases hx : x = classify_val u <;> (ext v; simp [mergeC, hx]; try tauto)

/-- `process_regular_file` is the merge of a per-file contribution. -/
theorem process_eq_merge (s : ScanState) (e : Option PyStr) :
    process_regular_file s e = mergeC s (fileContrib e) := by
  cases e with
  | none => simp [process_regular_file, fileContrib, mergeC_empty]
  | some t =>
    simp only [process_regular_file, fileContrib, handle_file_bytes]
    by_cases h : extract_urls_from_bytes t = []
    · simp [h, urlsContrib, mergeC_empty]
    · simp [h, handle_urls_eq_merge]

/-- Two merges commute (unions are commutative and associative pointwise). -/
theorem mergeC_comm (s : ScanState) (k1 k2 : Contrib) :
    mergeC (mergeC s k1) k2 = mergeC (mergeC s k2) k1 := by
  apply ScanState.ext
  · ext v; simp [mergeC]; try tauto
  · ext v; simp [mergeC]; try tauto
  · funext x; ext v; simp [mergeC]; try tauto

/-- Claim C3 (status: confirmed).  The final contents of the three result
collections do not depend on the order in which the inputs are processed:
any two processing orders of the same multiset of inputs produce the same
final state.  (The single lock makes each per-input merge atomic, so thread
interleavings are exactly reorderings of completed merges.) -/
theorem c3_order_independent (l1 l2 : List (Option PyStr)) (h : l1.Perm l2) :
    scan_files init_state l1 = scan_files init_state l2 := by
  have comm : ∀ (s : ScanState) e1 e2,
      process_regular_file (process_regular_file s e1) e2 =
      process_regular_file (process_regular_file s e2) e1 := by
    intro s e1 e2
    simp only [process_eq_merge, mergeC_comm]
  have main : ∀ s : ScanState,
      List.foldl process_regular_file s l1 = List.foldl process_regular_file s l2 := by
    induction h with
    | nil => intro s; rfl
    | cons x h ih =>
      intro s
      simp only [List.foldl_cons]
      exact ih _
    | swap x y l =>
      intro s
      simp only [List.foldl_cons]
      rw [comm]
    | trans h1 h2 ih1 ih2 =>
      intro s
      rw [ih1 s, ih2 s]
  exact main init_state

/-- Witness for `c3_order_independent`. -/
theorem c3_witness :
    ([some litACom, some litBNet] : List (Option PyStr)).Perm
      [some litBNet, some litACom] ∧
    scan_files init_state [some litACom, some litBNet] =
      scan_files init_state [some litBNet, some litACom] :=
  ⟨List.Perm.swap (some litBNet) (some litACom) [],
   c3_order_independent _ _ (List.Perm.swap (some litBNet) (some litACom) [])⟩

/-- `classify_github_url` always lands in the fixed seven-label set. -/
theorem classify_mem_sevenCats (u : PyStr) : classify_github_url u ∈ sevenCats := by
  unfold classify_github_url
  cases pyUrlparse u with
  | error e => simp [sevenCats]
  | ok p =>
    dsimp only
    repeat' split
    all_goals simp [sevenCats]

/-- Every URL in a category bucket classifies to that bucket's label;
preserved by the merge loop. -/
theorem handle_urls_bucketInv (l : List PyVal) :
    ∀ s : ScanState, (∀ c u, u ∈ s.git_urls_classified c → classify_val u = c) →
      ∀ c u, u ∈ (handle_urls s l).1.git_urls_classified c → classify_val u = c := by
  induction l with
  | nil => intro s hs; exact hs
  | cons v rest ih =>
    intro s hs
    cases hg : github_search v with
    | error e => simp only [handle_urls, hg]; exact hs
    | ok b =>
      cases b with
      | false => simp only [handle_urls, hg]; exact ih _ hs
      | true =>
        simp only [handle_urls, hg]
        apply ih
        intro c u hu
        dsimp only at hu
        by_cases hc : c = classify_val v
        · rw [if_pos hc] at hu
          rcases Finset.mem_insert.mp hu with h | h
          · rw [h, hc]
          · exact hs c u h
        · rw [if_neg hc] at hu
          exact hs c u hu
/-- The bucket invariant holds after scanning any list of member texts. -/
theorem scan_texts_bucketInv (ts : List PyStr) :
    ∀ s : ScanState, (∀ c u, u ∈ s.git_urls_classified c → classify_val u = c) →
      ∀ c u, u ∈ (scan_texts s ts).git_urls_classified c → classify_val u = c := by
  induction ts with
  | nil => exact fun s hs => hs
  | cons t rest ih =>
    intro s hs
    simp only [scan_texts, List.foldl_cons]
    apply ih
    unfold handle_file_bytes
    by_cases h : extract_urls_from_bytes t = []
    · simp only [h, if_pos]; exact hs
    · rw [if_neg h]
      exact handle_urls_bucketInv _ s hs

/-- Claim C5 (status: confirmed).  Classification is total into the seven
fixed categories, and after any sequence of merges the category buckets are
pairwise disjoint. -/
theorem c5_partition :
    (∀ u : PyStr, classify_github_url u ∈ sevenCats) ∧
    (∀ (ts : List PyStr) (c1 c2 : PyStr), c1 ≠ c2 →
      Disjoint ((scan_texts init_state ts).git_urls_classified c1)
               ((scan_texts init_state ts).git_urls_classified c2)) := by
  refine ⟨classify_mem_sevenCats, ?_⟩
  intro ts c1 c2 hne
  have inv := scan_texts_bucketInv ts init_state
    (by intro c u hu; simp [init_state] at hu)
  rw [Finset.disjoint_left]
  intro a h1 h2
  exact hne ((inv c1 a h1).symm.trans (inv c2 a h2))

/-- Witness for `c5_partition`. -/
theorem c5_witness :
    classify_github_url litGhIssue ∈ sevenCats ∧
    litIssue ≠ litRepo ∧
    Disjoint ((scan_texts init_state [c1text]).git_urls_classified litIssue)
             ((scan_texts init_state [c1text]).git_urls_classified litRepo) :=
  ⟨c5_partition.1 litGhIssue, by decide,
   c5_partition.2 [c1text] litIssue litRepo (by decide)⟩

/-- A list of tuples never touches `git_urls` or the buckets (the search
raises on its first element). -/
theorem handle_urls_tup_nogit (l : List PyVal)
    (hl : ∀ v ∈ l, ∃ a b, v = PyVal.tup a b) :
    ∀ s : ScanState, (handle_urls s l).1.git_urls = s.git_urls ∧
      (handle_urls s l).1.git_urls_classified = s.git_urls_classified := by
  cases l with
  | nil => intro s; simp [handle_urls]
  | cons v rest =>
    intro s
    obtain ⟨a, b, rfl⟩ := hl v (by simp)
    simp [handle_urls, github_search]

/-- No scan ever adds anything to `git_urls` or to any category bucket:
all tokenizer output is tuples. -/
theorem scan_texts_nogit (ts : List PyStr) :
    ∀ s : ScanState, (scan_texts s ts).git_urls = s.git_urls ∧
      (scan_texts s ts).git_urls_classified = s.git_urls_classified := by
  induction ts with
  | nil => intro s; exact ⟨rfl, rfl⟩
  | cons t rest ih =>
    intro s
    have step : ((handle_file_bytes s t).1).git_urls = s.git_urls ∧
        ((handle_file_bytes s t).1).git_urls_classified = s.git_urls_classified := by
      by_cases h : extract_urls_from_bytes t = []
      · simp [handle_file_bytes, h]
      · simp only [handle_file_bytes, if_neg h]
        exact handle_urls_tup_nogit _ (fun v hv => extract_mem_tup t v hv) s
    simp only [scan_texts, List.foldl_cons]
    have ihr := ih ((handle_file_bytes s t).1)
    simp only [scan_texts] at ihr
    exact ⟨ihr.1.trans step.1, ihr.2.trans step.2⟩

/-- Claim C10 (status: confirmed).  The hosting test is a case-insensitive
search for the substring `github.com` in the whole URL; a URL on the
`raw.githubusercontent.com` host (which does not contain that substring)
never passes it, and the `raw` bucket stays empty after any sequence of
merges — as does, on this code, every hosting collection. -/
theorem c10_raw_bucket_empty :
    (∀ ts : List PyStr, (scan_texts init_state ts).git_urls = ∅ ∧
      (scan_texts init_state ts).git_urls_classified litRaw = ∅) ∧
    github_search (PyVal.str litRawPlain) = Except.ok false ∧
    hasSub (pyLower litRawPlain) litGithubCom = false := by
  refine ⟨?_, by decide, by decide⟩
  intro ts
  have h := scan_texts_nogit ts init_state
  exact ⟨h.1, by rw [h.2]; rfl⟩

/-- Witness for `c10_raw_bucket_empty`. -/
theorem c10_witness :
    (scan_texts init_state [c1text]).git_urls = ∅ ∧
    (scan_texts init_state [c1text]).git_urls_classified litRaw = ∅ :=
  c10_raw_bucket_empty.1 [c1text]

/-- `split(c, 1)` when the separator is absent. -/
theorem splitFirst_of_not_mem (p : Char) (l : PyStr) (h : p ∉ l) :
    splitFirst p l = (l, []) := by
  induction l with
  | nil => rfl
  | cons c t ih =>
    rw [List.mem_cons, not_or] at h
    have hcp : ¬(c = p) := fun hc : c = p => h.1 hc.symm
    simp only [splitFirst, if_neg hcp, ih h.2]

/-- `split(c, 1)` at the first occurrence. -/
theorem splitFirst_append (p : Char) (l r : PyStr) (h : p ∉ l) :
    splitFirst p (l ++ p :: r) = (l, r) := by
  induction l with
  | nil => simp [splitFirst]
  | cons c t ih =>
    rw [List.mem_cons, not_or] at h
    have hcp : ¬(c = p) := fun hc : c = p => h.1 hc.symm
    simp only [List.cons_append, splitFirst, if_neg hcp, List.append_eq, ih h.2]

/-- `find` of the separator placed right after a clean block. -/
theorem findCharIdx_self_append (p : Char) (l r : PyStr) (h : p ∉ l) :
    findCharIdx p (l ++ p :: r) = some l.length := by
  induction l with
  | nil => simp [findCharIdx]
  | cons c t ih =>
    rw [List.mem_cons, not_or] at h
    have hcp : ¬(c = p) := fun hc : c = p => h.1 hc.symm
    simp only [List.cons_append, findCharIdx, if_neg hcp, List.append_eq, ih h.2,
      Option.map_some', List.length_cons]

theorem headD_append (l r : PyStr) (d : Char) (h : l ≠ []) :
    (l ++ r).headD d = l.headD d := by
  cases l with
  | nil => exact absurd rfl h
  | cons c t => rfl

/-- `dropWhile` does nothing when the head already fails the predicate. -/
theorem dropWhile_eq_self_of_head (p : Char → Bool) (l : PyStr) (hne : l ≠ [])
    (h : p (l.headD ' ') = false) : l.dropWhile p = l := by
  cases l with
  | nil => exact absurd rfl hne
  | cons c t => simp only [List.headD_cons] at h; simp [List.dropWhile_cons, h]

theorem takeWhile_append_all (p : Char → Bool) (l r : PyStr) (h : l.all p = true) :
    (l ++ r).takeWhile p = l ++ r.takeWhile p := by
  induction l with
  | nil => rfl
  | cons c t ih =>
    rw [List.all_cons, Bool.and_eq_true] at h
    simp [List.takeWhile_cons, h.1, ih h.2]

theorem dropWhile_append_all (p : Char → Bool) (l r : PyStr) (h : l.all p = true) :
    (l ++ r).dropWhile p = r.dropWhile p := by
  induction l with
  | nil => rfl
  | cons c t ih =>
    rw [List.all_cons, Bool.and_eq_true] at h
    simp [List.dropWhile_cons, h.1, ih h.2]

/-- No scheme character is a colon. -/
theorem not_colon_mem_of_schemeChars (s : PyStr) (h : s.all schemeChar = true) :
    ':' ∉ s := by
  intro hm
  have := List.all_eq_true.mp h ':' hm
  simp [schemeChar] at this

/-- The scheme check fails outright when the first character is not an
ASCII letter. -/
theorem schemeSplitIdx_none_of_head (w : PyStr) (h : asciiAlpha (w.headD ' ') = false) :
    schemeSplitIdx w = none := by
  unfold schemeSplitIdx
  cases hf : findCharIdx ':' w with
  | none => rfl
  | some i =>
    have hc : ¬(0 < i ∧ asciiAlpha (w.headD ' ') = true ∧ (w.take i).all schemeChar = true) := by
      intro hc
      rw [hc.2.1] at h
      simp at h
    simp only [if_neg hc]

/-- The scheme check succeeds on `scheme ++ ':' ++ body` for a well-formed
scheme. -/
theorem schemeSplitIdx_scheme (s body : PyStr) (hne : s ≠ [])
    (ha : asciiAlpha (s.headD ' ') = true) (hsc : s.all schemeChar = true) :
    schemeSplitIdx (s ++ ':' :: body) = some s.length := by
  have hcond : 0 < s.length ∧ asciiAlpha ((s ++ ':' :: body).headD ' ') = true ∧
      ((s ++ ':' :: body).take s.length).all schemeChar = true := by
    refine ⟨List.length_pos.mpr hne, ?_, ?_⟩
    · rw [headD_append s (':' :: body) ' ' hne]; exact ha
    · rw [List.take_left]; exact hsc
  unfold schemeSplitIdx
  rw [findCharIdx_self_append ':' s body (not_colon_mem_of_schemeChars s hsc)]
  simp only [if_pos hcond]

theorem drop_after_scheme (s body : PyStr) :
    (s ++ ':' :: body).drop (s.length + 1) = body := by
  have h1 : s ++ ':' :: body = (s ++ [':']) ++ body := by simp
  have h2 : (s ++ [':']).length = s.length + 1 := by simp
  rw [h1, ← h2, List.drop_left]

/-- Appending the query suffix cannot create a leading `//`. -/
theorem take_two_append_qpart (P q : PyStr) (hne : P ≠ [])
    (h : P.take 2 ≠ ['/', '/']) : (P ++ qpart q).take 2 ≠ ['/', '/'] := by
  match P, hne with
  | [c], _ =>
    unfold qpart
    by_cases hq : q = []
    · simp [hq]
    · rw [if_neg hq]
      intro hc
      simp at hc
  | c1 :: c2 :: t, _ =>
    intro hc
    apply h
    simpa using hc

theorem dropWhile_replicate_append (p : Char → Bool) (c : Char) (n : Nat) (r : PyStr)
    (h : p c = true) : (List.replicate n c ++ r).dropWhile p = r.dropWhile p := by
  induction n with
  | zero => rfl
  | succ m ih => simp [List.replicate_succ, List.dropWhile_cons, h, ih]

/-- `rstrip('/')` absorbs any appended run of slashes. -/
theorem rstrip_append_replicate (l : PyStr) (n : Nat) :
    rstripSlash (l ++ List.replicate n '/') = rstripSlash l := by
  unfold rstripSlash
  rw [List.reverse_append, List.reverse_replicate,
    dropWhile_replicate_append _ '/' n l.reverse (by decide)]

/-- An ASCII letter is not a C0-control-or-space character. -/
theorem alpha_not_c0 (c : Char) (h : asciiAlpha c = true) : isC0OrSpace c = false := by
  unfold asciiAlpha at h
  unfold isC0OrSpace
  simp only [Char.isAlpha, Char.isUpper, Char.isLower, Bool.or_eq_true,
    Bool.and_eq_true, decide_eq_true_eq] at h
  simp only [decide_eq_false_iff_not]
  intro hle
  rcases h with ⟨h1, _⟩ | ⟨h1, _⟩
  · exact absurd (UInt32.le_trans h1 hle) (by decide)
  · exact absurd (UInt32.le_trans h1 hle) (by decide)

/-- `urlunsplit` output decomposed into scheme prefix, core, and query
suffix. -/
theorem unsplit_shape (s n P q : PyStr) :
    pyUrlunsplit s n P q [] =
      (if s = [] then ([] : PyStr) else s ++ [':']) ++
      ((if n ≠ [] ∨ (s ≠ [] ∧ s ∈ uses_netloc ∧ P.take 2 ≠ ['/', '/'])
        then '/' :: '/' :: (n ++ unsplitAdjPath s n P) else P) ++ qpart q) := by
  unfold pyUrlunsplit unsplitAdjPath qpart
  by_cases hB : n ≠ [] ∨ (s ≠ [] ∧ s ∈ uses_netloc ∧ P.take 2 ≠ ['/', '/']) <;>
    by_cases hs : s = [] <;>
      by_cases hq : q = [] <;>
        simp [hB, hs, hq] <;>
          (split <;> simp_all)

/-- Every character of the adjusted path is a slash or a path character. -/
theorem mem_unsplitAdjPath (s n P : PyStr) (a : Char)
    (h : a ∈ unsplitAdjPath s n P) : a = '/' ∨ a ∈ P := by
  unfold unsplitAdjPath at h
  split at h
  · split at h
    · rcases List.mem_cons.mp h with h | h
      · exact Or.inl h
      · exact Or.inr h
    · exact Or.inr h
  · exact Or.inr h

theorem unsplitAdjPath_ne (s n P : PyStr) (hP : P ≠ []) :
    unsplitAdjPath s n P ≠ [] := by
  unfold unsplitAdjPath
  split
  · split
    · exact List.cons_ne_nil '/' P
    · exact hP
  · exact hP

/-- When the netloc branch is taken, the adjusted path starts with `/`. -/
theorem unsplitAdjPath_head (s n P : PyStr) (hP : P ≠ [])
    (hB : n ≠ [] ∨ (s ≠ [] ∧ s ∈ uses_netloc ∧ P.take 2 ≠ ['/', '/'])) :
    ∃ t, unsplitAdjPath s n P = '/' :: t := by
  unfold unsplitAdjPath
  rw [if_pos hB]
  by_cases hA : P ≠ [] ∧ P.take 1 ≠ ['/']
  · rw [if_pos hA]
    exact ⟨P, rfl⟩
  · rw [if_neg hA]
    push_neg at hA
    have h1 := hA hP
    cases P with
    | nil => exact absurd rfl hP
    | cons c t =>
      simp only [List.take_succ_cons, List.take_zero] at h1
      have : c = '/' := by simpa using h1
      exact ⟨t, by rw [this]⟩

theorem urlsplitCore_some (w : PyStr) (i : Nat) (h : schemeSplitIdx w = some i) :
    urlsplitCore w = urlsplitAfterScheme ((w.take i).map Char.toLower) (w.drop (i + 1)) := by
  unfold urlsplitCore
  rw [h]

theorem urlsplitCore_none (w : PyStr) (h : schemeSplitIdx w = none) :
    urlsplitCore w = urlsplitAfterScheme [] w := by
  unfold urlsplitCore
  rw [h]

/-- Re-parsing the output of `urlunsplit` recovers the components (with the
path adjusted as `urlunsplit` itself adjusts it), for well-formed component
values of the kind `urlsplit` produces. -/
theorem urlsplit_unsplit (s n P q : PyStr)
    (hsl : pyLower s = s)
    (hsa : s ≠ [] → asciiAlpha (s.headD ' ') = true)
    (hsc : s.all schemeChar = true)
    (hnc : n.all netlocChar = true)
    (hbr : ¬(('[' ∈ n ∧ ']' ∉ n) ∨ (']' ∈ n ∧ '[' ∉ n)))
    (hP : P ≠ [])
    (hPq : '?' ∉ P) (hPh : '#' ∉ P) (hqh : '#' ∉ q)
    (hts : ∀ c ∈ s, isTabCrLf c = false) (htn : ∀ c ∈ n, isTabCrLf c = false)
    (htP : ∀ c ∈ P, isTabCrLf c = false) (htq : ∀ c ∈ q, isTabCrLf c = false)
    (hss : n = [] → P.take 2 ≠ ['/', '/'])
    (hPhead : s = [] → n = [] → isC0OrSpace (P.headD ' ') = false)
    (hnos : s = [] → n = [] → schemeSplitIdx (P ++ qpart q) = none) :
    pyUrlsplit (pyUrlunsplit s n P q []) =
      .ok ⟨s, n, unsplitAdjPath s n P, q, []⟩ := by
  have hQmem : ∀ a ∈ qpart q, a = '?' ∨ a ∈ q := by
    intro a ha
    unfold qpart at ha
    split at ha
    · simp at ha
    · rcases List.mem_cons.mp ha with h | h
      · exact Or.inl h
      · exact Or.inr h
  have hQsplit : ∀ (l : PyStr), '?' ∉ l → splitFirst '?' (l ++ qpart q) = (l, q) := by
    intro l hl
    unfold qpart
    by_cases hq0 : q = []
    · rw [if_pos hq0, List.append_nil, splitFirst_of_not_mem _ _ hl, hq0]
    · rw [if_neg hq0]
      exact splitFirst_append '?' l q hl
  have hHsplit : ∀ (l : PyStr), '#' ∉ l →
      splitFirst '#' (l ++ qpart q) = (l ++ qpart q, []) := by
    intro l hl
    apply splitFirst_of_not_mem
    intro hm
    rcases List.mem_append.mp hm with h | h
    · exact hl h
    · rcases hQmem _ h with h1 | h1
      · exact absurd h1 (by decide)
      · exact hqh h1
  by_cases hB : n ≠ [] ∨ (s ≠ [] ∧ s ∈ uses_netloc ∧ P.take 2 ≠ ['/', '/'])
  · -- netloc branch of urlunsplit
    obtain ⟨tadj, hadj⟩ := unsplitAdjPath_head s n P hP hB
    have hadjmem : ∀ a ∈ unsplitAdjPath s n P, a = '/' ∨ a ∈ P :=
      fun a ha => mem_unsplitAdjPath s n P a ha
    have hadjq : '?' ∉ unsplitAdjPath s n P := by
      intro hm
      rcases hadjmem _ hm with h | h
      · exact absurd h (by decide)
      · exact hPq h
    have hadjh : '#' ∉ unsplitAdjPath s n P := by
      intro hm
      rcases hadjmem _ hm with h | h
      · exact absurd h (by decide)
      · exact hPh h
    have hAfter : urlsplitAfterScheme s ('/' :: '/' :: (n ++ unsplitAdjPath s n P) ++ qpart q) =
        .ok ⟨s, n, unsplitAdjPath s n P, q, []⟩ := by
      unfold urlsplitAfterScheme
      have htake : ('/' :: '/' :: (n ++ unsplitAdjPath s n P) ++ qpart q).take 2 =
          ['/', '/'] := rfl
      rw [if_pos htake]
      have hdrop : ('/' :: '/' :: (n ++ unsplitAdjPath s n P) ++ qpart q).drop 2 =
          n ++ (unsplitAdjPath s n P ++ qpart q) := by
        simp
      have hheadfail : netlocChar '/' = false := by decide
      have hTW : (('/' :: '/' :: (n ++ unsplitAdjPath s n P) ++ qpart q).drop 2).takeWhile
          netlocChar = n := by
        rw [hdrop, takeWhile_append_all netlocChar n _ hnc, hadj]
        simp [List.takeWhile_cons, hheadfail]
      have hDW : (('/' :: '/' :: (n ++ unsplitAdjPath s n P) ++ qpart q).drop 2).dropWhile
          netlocChar = unsplitAdjPath s n P ++ qpart q := by
        rw [hdrop, dropWhile_append_all netlocChar n _ hnc, hadj]
        simp [List.dropWhile_cons, hheadfail]
      simp only [hTW, hDW]
      rw [if_neg hbr]
      rw [hHsplit _ hadjh]
      simp only []
      rw [hQsplit _ hadjq]
    rw [unsplit_shape, if_pos hB]
    have hvne : (if s = [] then ([] : PyStr) else s ++ [':']) ++
        ('/' :: '/' :: (n ++ unsplitAdjPath s n P) ++ qpart q) ≠ [] := by
      by_cases hs0 : s = [] <;> simp [hs0]
    have hvhd : isC0OrSpace (((if s = [] then ([] : PyStr) else s ++ [':']) ++
        ('/' :: '/' :: (n ++ unsplitAdjPath s n P) ++ qpart q)).headD ' ') = false := by
      by_cases hs0 : s = []
      · rw [if_pos hs0, List.nil_append]
        rfl
      · rw [if_neg hs0]
        have hre : (s ++ [':']) ++ ('/' :: '/' :: (n ++ unsplitAdjPath s n P) ++ qpart q) =
            s ++ (':' :: ('/' :: '/' :: (n ++ unsplitAdjPath s n P) ++ qpart q)) := by
          simp
        rw [hre, headD_append s _ ' ' hs0]
        exact alpha_not_c0 _ (hsa hs0)
    have hvm : ∀ a ∈ (if s = [] then ([] : PyStr) else s ++ [':']) ++
        ('/' :: '/' :: (n ++ unsplitAdjPath s n P) ++ qpart q), (!isTabCrLf a) = true := by
      intro a ha
      rw [Bool.not_eq_true']
      rcases List.mem_append.mp ha with h | h
      · split at h
        · simp at h
        · rcases List.mem_append.mp h with h1 | h1
          · exact hts a h1
          · have ha2 : a = ':' := by simpa using h1
            rw [ha2]; rfl
      · rcases List.mem_append.mp h with h1 | h1
        · rcases List.mem_cons.mp h1 with h2 | h2
          · rw [h2]; rfl
          · rcases List.mem_cons.mp h2 with h3 | h3
            · rw [h3]; rfl
            · rcases List.mem_append.mp h3 with h4 | h4
              · exact htn a h4
              · rcases hadjmem _ h4 with h5 | h5
                · rw [h5]; rfl
                · exact htP a h5
        · rcases hQmem _ h1 with h2 | h2
          · rw [h2]; rfl
          · exact htq a h2
    unfold pyUrlsplit
    rw [dropWhile_eq_self_of_head _ _ hvne hvhd, List.filter_eq_self.mpr hvm]
    by_cases hs0 : s = []
    · subst hs0
      show urlsplitCore ('/' :: '/' :: (n ++ unsplitAdjPath [] n P) ++ qpart q) = _
      rw [urlsplitCore_none _ (schemeSplitIdx_none_of_head
        ('/' :: '/' :: (n ++ unsplitAdjPath [] n P) ++ qpart q) rfl)]
      exact hAfter
    · rw [if_neg hs0]
      have hre : (s ++ [':']) ++ ('/' :: '/' :: (n ++ unsplitAdjPath s n P) ++ qpart q) =
          s ++ (':' :: ('/' :: '/' :: (n ++ unsplitAdjPath s n P) ++ qpart q)) := by
        simp
      rw [hre]
      rw [urlsplitCore_some _ _ (schemeSplitIdx_scheme s _ hs0 (hsa hs0) hsc)]
      have htk : (s ++ ':' :: ('/' :: '/' :: (n ++ unsplitAdjPath s n P) ++ qpart q)).take
          s.length = s := List.take_left s _
      have hdr : (s ++ ':' :: ('/' :: '/' :: (n ++ unsplitAdjPath s n P) ++ qpart q)).drop
          (s.length + 1) = '/' :: '/' :: (n ++ unsplitAdjPath s n P) ++ qpart q :=
        drop_after_scheme s _
      rw [htk, hdr]
      have hmap : s.map Char.toLower = s := hsl
      rw [hmap]
      exact hAfter
  · -- plain branch of urlunsplit
    have hn : n = [] := by
      by_contra hne
      exact hB (Or.inl hne)
    have hadjP : unsplitAdjPath s n P = P := by
      unfold unsplitAdjPath
      rw [if_neg hB]
    have hAfter : urlsplitAfterScheme s (P ++ qpart q) = .ok ⟨s, [], P, q, []⟩ := by
      unfold urlsplitAfterScheme
      rw [if_neg (take_two_append_qpart P q hP (hss hn))]
      rw [hHsplit _ hPh]
      simp only []
      rw [hQsplit _ hPq]
    rw [unsplit_shape, if_neg hB, hadjP, hn]
    have hvne : (if s = [] then ([] : PyStr) else s ++ [':']) ++ (P ++ qpart q) ≠ [] := by
      by_cases hs0 : s = [] <;> simp [hs0, hP]
    have hvhd : isC0OrSpace (((if s = [] then ([] : PyStr) else s ++ [':']) ++
        (P ++ qpart q)).headD ' ') = false := by
      by_cases hs0 : s = []
      · rw [if_pos hs0, List.nil_append, headD_append P _ ' ' hP]
        exact hPhead hs0 hn
      · rw [if_neg hs0]
        have hre : (s ++ [':']) ++ (P ++ qpart q) = s ++ (':' :: (P ++ qpart q)) := by
          simp
        rw [hre, headD_append s _ ' ' hs0]
        exact alpha_not_c0 _ (hsa hs0)
    have hvm : ∀ a ∈ (if s = [] then ([] : PyStr) else s ++ [':']) ++ (P ++ qpart q),
        (!isTabCrLf a) = true := by
      intro a ha
      rw [Bool.not_eq_true']
      rcases List.mem_append.mp ha with h | h
      · split at h
        · simp at h
        · rcases List.mem_append.mp h with h1 | h1
          · exact hts a h1
          · have ha2 : a = ':' := by simpa using h1
            rw [ha2]; rfl
      · rcases List.mem_append.mp h with h1 | h1
        · exact htP a h1
        · rcases hQmem _ h1 with h2 | h2
          · rw [h2]; rfl
          · exact htq a h2
    unfold pyUrlsplit
    rw [dropWhile_eq_self_of_head _ _ hvne hvhd, List.filter_eq_self.mpr hvm]
    by_cases hs0 : s = []
    · subst hs0
      show urlsplitCore (P ++ qpart q) = _
      rw [urlsplitCore_none _ (hnos rfl hn)]
      exact hAfter
    · rw [if_neg hs0]
      have hre : (s ++ [':']) ++ (P ++ qpart q) = s ++ (':' :: (P ++ qpart q)) := by
        simp
      rw [hre]
      rw [urlsplitCore_some _ _ (schemeSplitIdx_scheme s _ hs0 (hsa hs0) hsc)]
      have htk : (s ++ ':' :: (P ++ qpart q)).take s.length = s := List.take_left s _
      have hdr : (s ++ ':' :: (P ++ qpart q)).drop (s.length + 1) = P ++ qpart q :=
        drop_after_scheme s _
      rw [htk, hdr]
      have hmap : s.map Char.toLower = s := hsl
      rw [hmap]
      exact hAfter

theorem not_mem_append_replicate (a c : Char) (l : PyStr) (n : Nat)
    (h1 : a ∉ l) (h2 : a ≠ c) : a ∉ l ++ List.replicate n c := by
  intro hm
  rcases List.mem_append.mp hm with h | h
  · exact h1 h
  · exact h2 (List.eq_of_mem_replicate h)

theorem forall_mem_append_replicate (pr : Char → Prop) (l : PyStr) (c : Char) (n : Nat)
    (h1 : ∀ a ∈ l, pr a) (h2 : pr c) : ∀ a ∈ l ++ List.replicate n c, pr a := by
  intro a ha
  rcases List.mem_append.mp ha with h | h
  · exact h1 a h
  · rw [List.eq_of_mem_replicate h]
    exact h2

/-- `normalize_url` on a successfully parsed URL. -/
theorem normalize_of_parse (u : PyStr) (p : ParseResult) (h : pyUrlparse u = .ok p) :
    normalize_url u = pyUrlunparse (norm_scheme p) (norm_netloc p) (norm_path p) [] p.query [] := by
  unfold normalize_url
  rw [h]

/-- `urlparse` when the params split does not apply. -/
theorem pyUrlparse_of_split (u : PyStr) (r : SplitResult) (h : pyUrlsplit u = .ok r)
    (hns : ¬(r.scheme ∈ uses_params ∧ ';' ∈ r.path)) :
    pyUrlparse u = .ok ⟨r.scheme, r.netloc, r.path, [], r.query, r.fragment⟩ := by
  unfold pyUrlparse
  rw [h]
  dsimp only
  rw [if_neg hns]

theorem append_replicate_ne (l : PyStr) (hl : l ≠ []) (n : Nat) (c : Char) :
    l ++ List.replicate n c ≠ [] := by
  intro h
  exact hl (List.append_eq_nil.mp h).1

/-- `normalize_url` strips every trailing slash from
`http://example.com/a////…`. -/
theorem norm_strip_all_slashes (n : Nat) :
    normalize_url (litANoSlash ++ List.replicate n '/') = litANoSlash := by
  have hno : ¬((litSlashA ++ List.replicate n '/') ≠ [] ∧
      (litSlashA ++ List.replicate n '/').take 1 ≠ ['/']) := by
    intro hc
    apply hc.2
    rw [List.take_append_of_le_length (by decide)]
    decide
  have hadj : unsplitAdjPath litHttp litExCom (litSlashA ++ List.replicate n '/') =
      litSlashA ++ List.replicate n '/' := by
    unfold unsplitAdjPath
    rw [if_pos (Or.inl (by decide)), if_neg hno]
  have hR := urlsplit_unsplit litHttp litExCom (litSlashA ++ List.replicate n '/') []
    (by decide) (fun _ => by decide) (by decide) (by decide) (by decide)
    (append_replicate_ne litSlashA (by decide) n '/')
    (not_mem_append_replicate '?' '/' litSlashA n (by decide) (by decide))
    (not_mem_append_replicate '#' '/' litSlashA n (by decide) (by decide))
    (List.not_mem_nil '#')
    (by decide) (by decide)
    (forall_mem_append_replicate (fun a => isTabCrLf a = false) litSlashA '/' n
      (by decide) (by decide))
    (by decide)
    (fun h => absurd h (by decide))
    (fun h => absurd h (by decide))
    (fun h => absurd h (by decide))
  rw [hadj] at hR
  have heq : pyUrlunsplit litHttp litExCom (litSlashA ++ List.replicate n '/') [] [] =
      litANoSlash ++ List.replicate n '/' := by
    rw [unsplit_shape]
    rw [if_neg (by decide : ¬(litHttp = []))]
    rw [if_pos (Or.inl (by decide : litExCom ≠ []))]
    rw [hadj]
    show (litHttp ++ [':']) ++
      ('/' :: '/' :: (litExCom ++ (litSlashA ++ List.replicate n '/')) ++ []) = _
    have h0 : litANoSlash = (litHttp ++ [':']) ++ ('/' :: '/' :: (litExCom ++ litSlashA)) := by
      decide
    rw [h0]
    simp [List.append_assoc]
  rw [heq] at hR
  have hparse : pyUrlparse (litANoSlash ++ List.replicate n '/') =
      .ok ⟨litHttp, litExCom, litSlashA ++ List.replicate n '/', [], [], []⟩ :=
    pyUrlparse_of_split _ _ hR
      (fun hc => (not_mem_append_replicate ';' '/' litSlashA n (by decide) (by decide)) hc.2)
  rw [normalize_of_parse _ _ hparse]
  have h1 : norm_scheme ⟨litHttp, litExCom, litSlashA ++ List.replicate n '/', [], [], []⟩ =
      litHttp := rfl
  have h2 : norm_netloc ⟨litHttp, litExCom, litSlashA ++ List.replicate n '/', [], [], []⟩ =
      litExCom := rfl
  have h3 : norm_path ⟨litHttp, litExCom, litSlashA ++ List.replicate n '/', [], [], []⟩ =
      litSlashA := by
    unfold norm_path
    dsimp only
    rw [rstrip_append_replicate]
    rw [if_neg (by decide)]
    decide
  rw [h1, h2, h3]
  show pyUrlunparse litHttp litExCom litSlashA [] [] [] = litANoSlash
  decide

/-- `normalize_url` collapses `http://example.com////…` to the root path. -/
theorem norm_root_slashes (n : Nat) :
    normalize_url (litPlainNoSlash ++ List.replicate n '/') = litPlainSlash := by
  cases n with
  | zero => decide
  | succ m =>
    have htake : (List.replicate (m + 1) '/').take 1 = ['/'] := by
      rw [List.replicate_succ]
      rfl
    have hno : ¬((List.replicate (m + 1) '/') ≠ [] ∧
        (List.replicate (m + 1) '/').take 1 ≠ ['/']) := by
      intro hc
      exact hc.2 htake
    have hadj : unsplitAdjPath litHttp litExCom (List.replicate (m + 1) '/') =
        List.replicate (m + 1) '/' := by
      unfold unsplitAdjPath
      rw [if_pos (Or.inl (by decide)), if_neg hno]
    have hR := urlsplit_unsplit litHttp litExCom (List.replicate (m + 1) '/') []
      (by decide) (fun _ => by decide) (by decide) (by decide) (by decide)
      (by simp)
      (fun h => absurd (List.eq_of_mem_replicate h) (by decide))
      (fun h => absurd (List.eq_of_mem_replicate h) (by decide))
      (List.not_mem_nil '#')
      (by decide) (by decide)
      (fun a ha => by rw [List.eq_of_mem_replicate ha]; rfl)
      (by decide)
      (fun h => absurd h (by decide))
      (fun h => absurd h (by decide))
      (fun h => absurd h (by decide))
    rw [hadj] at hR
    have heq : pyUrlunsplit litHttp litExCom (List.replicate (m + 1) '/') [] [] =
        litPlainNoSlash ++ List.replicate (m + 1) '/' := by
      rw [unsplit_shape]
      rw [if_neg (by decide : ¬(litHttp = []))]
      rw [if_pos (Or.inl (by decide : litExCom ≠ []))]
      rw [hadj]
      show (litHttp ++ [':']) ++
        ('/' :: '/' :: (litExCom ++ List.replicate (m + 1) '/') ++ []) = _
      have h0 : litPlainNoSlash = (litHttp ++ [':']) ++ ('/' :: '/' :: litExCom) := by
        decide
      rw [h0]
      simp [List.append_assoc]
    rw [heq] at hR
    have hparse : pyUrlparse (litPlainNoSlash ++ List.replicate (m + 1) '/') =
        .ok ⟨litHttp, litExCom, List.replicate (m + 1) '/', [], [], []⟩ :=
      pyUrlparse_of_split _ _ hR
        (fun hc => absurd (List.eq_of_mem_replicate hc.2) (by decide))
    rw [normalize_of_parse _ _ hparse]
    have h1 : norm_scheme ⟨litHttp, litExCom, List.replicate (m + 1) '/', [], [], []⟩ =
        litHttp := rfl
    have h2 : norm_netloc ⟨litHttp, litExCom, List.replicate (m + 1) '/', [], [], []⟩ =
        litExCom := rfl
    have h3 : norm_path ⟨litHttp, litExCom, List.replicate (m + 1) '/', [], [], []⟩ =
        ['/'] := by
      unfold norm_path
      dsimp only
      have ht : rstripSlash (List.replicate (m + 1) '/') = [] := by
        rw [← List.nil_append (List.replicate (m + 1) '/'), rstrip_append_replicate]
        rfl
      rw [ht]
      rfl
    rw [h1, h2, h3]
    show pyUrlunparse litHttp litExCom ['/'] [] [] [] = litPlainSlash
    decide

/-- Claim C7 amended (status: corrected).  `normalize_url` collapses an
empty (or all-slash) path to `/` and otherwise strips ALL trailing slashes
(not exactly one); the two concrete examples of the claim hold. -/
theorem c7_amended_path_behaviour :
    normalize_url litP80A1Slash = litANoSlash ∧
    normalize_url litPlainHttps = litPlainHttpsSlash ∧
    (∀ n : Nat, normalize_url (litANoSlash ++ List.replicate n '/') = litANoSlash) ∧
    (∀ n : Nat, normalize_url (litPlainNoSlash ++ List.replicate n '/') = litPlainSlash) :=
  ⟨by decide, by decide, norm_strip_all_slashes, norm_root_slashes⟩

/-- Witness for `c7_amended_path_behaviour`. -/
theorem c7_witness :
    normalize_url (litANoSlash ++ List.replicate 3 '/') = litANoSlash ∧
    normalize_url (litPlainNoSlash ++ List.replicate 2 '/') = litPlainSlash :=
  ⟨c7_amended_path_behaviour.2.2.1 3, c7_amended_path_behaviour.2.2.2 2⟩

theorem toLower_eq (c : Char) : Char.toLower c =
    if c.toNat ≥ 65 ∧ c.toNat ≤ 90 then Char.ofNat (c.toNat + 32) else c := rfl

theorem ofNat_toNat_add32 (n : Nat) (h1 : 65 ≤ n) (h2 : n ≤ 90) :
    (Char.ofNat (n + 32)).toNat = n + 32 := by
  have hv : (n + 32).isValidChar := Or.inl (by omega)
  simp [Char.ofNat, hv, Char.toNat, Char.ofNatAux]
  rfl

theorem ne_of_toNat_ne (a b : Char) (h : a.toNat ≠ b.toNat) : a ≠ b :=
  fun he => h (congrArg _ he)

/-- `Char.toLower` either fixes its argument or shifts an upper-case ASCII
letter down by 32. -/
theorem toLower_cases (c : Char) :
    Char.toLower c = c ∨
    (65 ≤ c.toNat ∧ c.toNat ≤ 90 ∧ (Char.toLower c).toNat = c.toNat + 32) := by
  rw [toLower_eq]
  by_cases h : c.toNat ≥ 65 ∧ c.toNat ≤ 90
  · right
    rw [if_pos h]
    exact ⟨h.1, h.2, ofNat_toNat_add32 c.toNat h.1 h.2⟩
  · left
    rw [if_neg h]

theorem toLower_idem (c : Char) : Char.toLower (Char.toLower c) = Char.toLower c := by
  rcases toLower_cases c with h | ⟨h1, h2, h3⟩
  · rw [h]
    exact h
  · rw [toLower_eq (Char.toLower c), if_neg (by omega)]

theorem isLower_of_range (d : Char) (h1 : 97 ≤ d.toNat) (h2 : d.toNat ≤ 122) :
    Char.isLower d = true := by
  simp only [Char.isLower, Bool.and_eq_true, decide_eq_true_eq]
  exact ⟨h1, h2⟩

theorem toLower_alpha (c : Char) (h : asciiAlpha c = true) :
    asciiAlpha (Char.toLower c) = true := by
  rcases toLower_cases c with hc | ⟨h1, h2, h3⟩
  · rw [hc]
    exact h
  · have hl : Char.isLower (Char.toLower c) = true :=
      isLower_of_range (Char.toLower c) (by omega) (by omega)
    simp [asciiAlpha, Char.isAlpha, hl]

theorem schemeChar_toLower (c : Char) (h : schemeChar c = true) :
    schemeChar (Char.toLower c) = true := by
  rcases toLower_cases c with hc | ⟨h1, h2, h3⟩
  · rw [hc]
    exact h
  · have hl : Char.isLower (Char.toLower c) = true :=
      isLower_of_range (Char.toLower c) (by omega) (by omega)
    simp [schemeChar, Char.isAlpha, hl]

theorem netlocChar_toLower (c : Char) (h : netlocChar c = true) :
    netlocChar (Char.toLower c) = true := by
  rcases toLower_cases c with hc | ⟨h1, h2, h3⟩
  · rw [hc]
    exact h
  · simp only [netlocChar, Bool.not_eq_true', Bool.or_eq_false_iff,
      decide_eq_false_iff_not]
    refine ⟨⟨?_, ?_⟩, ?_⟩
    · exact ne_of_toNat_ne _ _ (by rw [show ('/' : Char).toNat = 47 from rfl]; omega)
    · exact ne_of_toNat_ne _ _ (by rw [show ('?' : Char).toNat = 63 from rfl]; omega)
    · exact ne_of_toNat_ne _ _ (by rw [show ('#' : Char).toNat = 35 from rfl]; omega)

theorem isTabCrLf_toLower (c : Char) (h : isTabCrLf c = false) :
    isTabCrLf (Char.toLower c) = false := by
  rcases toLower_cases c with hc | ⟨h1, h2, h3⟩
  · rw [hc]
    exact h
  · simp only [isTabCrLf, Bool.or_eq_false_iff, decide_eq_false_iff_not]
    refine ⟨⟨?_, ?_⟩, ?_⟩
    · intro hv
      have h9 : (Char.toLower c).toNat = 9 := congrArg UInt32.toNat hv
      omega
    · intro hv
      have h9 : (Char.toLower c).toNat = 13 := congrArg UInt32.toNat hv
      omega
    · intro hv
      have h9 : (Char.toLower c).toNat = 10 := congrArg UInt32.toNat hv
      omega

theorem tab_is_c0 (c : Char) (h : isTabCrLf c = true) : isC0OrSpace c = true := by
  simp only [isTabCrLf, Bool.or_eq_true, decide_eq_true_eq] at h
  simp only [isC0OrSpace, decide_eq_true_eq]
  rcases h with (h | h) | h <;> (rw [h]; decide)

theorem pyLower_idem (l : PyStr) : pyLower (pyLower l) = pyLower l := by
  unfold pyLower
  rw [List.map_map]
  exact List.map_congr_left (fun a _ => toLower_idem a)

theorem pyLower_headD (l : PyStr) (h : l ≠ []) :
    (pyLower l).headD ' ' = Char.toLower (l.headD ' ') := by
  cases l with
  | nil => exact absurd rfl h
  | cons c t => rfl

theorem headD_take (l : PyStr) (i : Nat) (hi : 0 < i) (hl : l ≠ []) :
    (l.take i).headD ' ' = l.headD ' ' := by
  cases l with
  | nil => exact absurd rfl hl
  | cons c t =>
    cases i with
    | zero => omega
    | succ j => rfl

theorem dropWhile_head_false (p : Char → Bool) (l : PyStr)
    (h : l.dropWhile p = l) (hne : l ≠ []) : p (l.headD ' ') = false := by
  cases l with
  | nil => exact absurd rfl hne
  | cons c t =>
    rw [List.headD_cons]
    by_cases hc : p c
    · rw [List.dropWhile_cons, if_pos hc] at h
      have h2 := (h ▸ (show List.Sublist (t.dropWhile p) t from List.dropWhile_sublist p)).length_le
      simp at h2
    · exact Bool.eq_false_iff.mpr hc

theorem dropWhile_of_dropWhile (p : Char → Bool) (l : PyStr) :
    (l.dropWhile p).dropWhile p = l.dropWhile p := by
  induction l with
  | nil => rfl
  | cons c t ih =>
    rw [List.dropWhile_cons]
    by_cases hc : p c
    · rw [if_pos hc]
      exact ih
    · rw [if_neg hc, List.dropWhile_cons, if_neg hc]

theorem dropWhile_head_false' (p : Char → Bool) (l : PyStr) (hne : l.dropWhile p ≠ []) :
    p ((l.dropWhile p).headD ' ') = false :=
  dropWhile_head_false p (l.dropWhile p) (dropWhile_of_dropWhile p l) hne

/-- A cleaned URL (lstripped, with tab/CR/LF removed) starts with a
non-C0-or-space character, when non-empty. -/
theorem clean_head (u : PyStr)
    (h : ((u.dropWhile isC0OrSpace).filter (fun c => !isTabCrLf c)) ≠ []) :
    isC0OrSpace ((((u.dropWhile isC0OrSpace).filter (fun c => !isTabCrLf c))).headD ' ') =
      false := by
  have h1 : u.dropWhile isC0OrSpace ≠ [] := by
    intro he
    rw [he] at h
    exact h rfl
  have h2 : isC0OrSpace ((u.dropWhile isC0OrSpace).headD ' ') = false :=
    dropWhile_head_false' isC0OrSpace u h1
  cases hd : u.dropWhile isC0OrSpace with
  | nil => exact absurd hd h1
  | cons c t =>
    rw [hd, List.headD_cons] at h2
    have hkeep : (!isTabCrLf c) = true := by
      rw [Bool.not_eq_true']
      cases htc : isTabCrLf c with
      | false => rfl
      | true => rw [tab_is_c0 c htc] at h2; exact h2
    rw [List.filter_cons, if_pos hkeep, List.headD_cons]
    exact h2

theorem rstrip_decomp (l : PyStr) :
    rstripSlash l ++ (l.reverse.takeWhile (fun c => c = '/')).reverse = l := by
  unfold rstripSlash
  rw [← List.reverse_append, List.takeWhile_append_dropWhile, List.reverse_reverse]

theorem rstrip_pref (l : PyStr) : rstripSlash l <+: l :=
  ⟨(l.reverse.takeWhile (fun c => c = '/')).reverse, rstrip_decomp l⟩

theorem rstrip_idem (l : PyStr) : rstripSlash (rstripSlash l) = rstripSlash l := by
  unfold rstripSlash
  rw [List.reverse_reverse, dropWhile_of_dropWhile]

theorem prefix_headD (l1 l2 : PyStr) (h : l1 <+: l2) (hne : l1 ≠ []) :
    l2.headD ' ' = l1.headD ' ' := by
  rcases h with ⟨t, rfl⟩
  exact headD_append l1 t ' ' hne

theorem rstrip_headD (l : PyStr) (h : rstripSlash l ≠ []) :
    l.headD ' ' = (rstripSlash l).headD ' ' :=
  prefix_headD (rstripSlash l) l (rstrip_pref l) h

/-- The reverse-form of `rstripSlash` being a fixed point. -/
theorem rstrip_fix_reverse (t : PyStr) (h : rstripSlash t = t) :
    t.reverse.dropWhile (fun c => c = '/') = t.reverse := by
  have := congrArg List.reverse h
  unfold rstripSlash at this
  rw [List.reverse_reverse] at this
  exact this

theorem rstrip_cons_slash (t : PyStr) (h : rstripSlash t = t) (hne : t ≠ []) :
    rstripSlash ('/' :: t) = '/' :: t := by
  unfold rstripSlash
  rw [List.reverse_cons]
  have hrne : t.reverse ≠ [] := by
    intro he
    exact hne (by simpa using congrArg List.reverse he)
  have hhd : (fun c => decide (c = '/')) ((t.reverse ++ ['/']).headD ' ') = false := by
    rw [headD_append t.reverse ['/'] ' ' hrne]
    exact dropWhile_head_false _ t.reverse (rstrip_fix_reverse t h) hrne
  rw [dropWhile_eq_self_of_head _ _ (by simp) hhd]
  simp

theorem splitFirst_fst_pref (p : Char) (l : PyStr) : (splitFirst p l).1 <+: l := by
  induction l with
  | nil => exact List.nil_prefix
  | cons c t ih =>
    by_cases hc : c = p
    · simp only [splitFirst, if_pos hc]
      exact List.nil_prefix
    · simp only [splitFirst, if_neg hc]
      rcases ih with ⟨r, hr⟩
      exact ⟨r, by rw [List.cons_append, hr]⟩

theorem splitFirst_fst_not_mem (p : Char) (l : PyStr) : p ∉ (splitFirst p l).1 := by
  induction l with
  | nil => simp [splitFirst]
  | cons c t ih =>
    by_cases hc : c = p
    · simp [splitFirst, if_pos hc]
    · simp only [splitFirst, if_neg hc]
      intro hm
      rcases List.mem_cons.mp hm with h | h
      · exact hc h.symm
      · exact ih h

theorem splitFirst_snd_subset (p : Char) (l : PyStr) :
    ∀ a ∈ (splitFirst p l).2, a ∈ l := by
  induction l with
  | nil => simp [splitFirst]
  | cons c t ih =>
    intro a ha
    by_cases hc : c = p
    · simp only [splitFirst, if_pos hc] at ha
      exact List.mem_cons_of_mem c ha
    · simp only [splitFirst, if_neg hc] at ha
      exact List.mem_cons_of_mem c (ih a ha)

theorem findCharIdx_eq_some (p : Char) (l : PyStr) (i : Nat)
    (h : findCharIdx p l = some i) :
    ∃ l1 l2, l = l1 ++ p :: l2 ∧ l1.length = i ∧ p ∉ l1 := by
  induction l generalizing i with
  | nil => simp [findCharIdx] at h
  | cons c t ih =>
    by_cases hc : c = p
    · simp only [findCharIdx, if_pos hc] at h
      injection h with h0
      exact ⟨[], t, by simp [hc], by simp [← h0], by simp⟩
    · simp only [findCharIdx, if_neg hc] at h
      rcases Option.map_eq_some'.mp h with ⟨j, hj, hji⟩
      rcases ih j hj with ⟨l1, l2, he, hl, hm⟩
      refine ⟨c :: l1, l2, by rw [List.cons_append, he], by simp [hl, hji], ?_⟩
      intro hmem
      rcases List.mem_cons.mp hmem with h1 | h1
      · exact hc h1.symm
      · exact hm h1

/-- Decomposition of a string at its last slash. -/
theorem lastSlash_decomp (l : PyStr) (hs : '/' ∈ l) :
    l = l.take (l.length - ((l.reverse.takeWhile (fun c => c ≠ '/')).reverse).length - 1) ++
        '/' :: (l.reverse.takeWhile (fun c => c ≠ '/')).reverse := by
  have hd : l.reverse.dropWhile (fun c => c ≠ '/') ≠ [] := by
    intro he
    have h1 := List.takeWhile_append_dropWhile (fun c => c ≠ '/') l.reverse
    rw [he, List.append_nil] at h1
    have h2 : '/' ∈ l.reverse.takeWhile (fun c => c ≠ '/') := by
      rw [h1]
      exact List.mem_reverse.mpr hs
    have h3 := List.all_eq_true.mp List.all_takeWhile '/' h2
    simp at h3
  cases hdw : l.reverse.dropWhile (fun c => c ≠ '/') with
  | nil => exact absurd hdw hd
  | cons c0 rest =>
    have hc0 : c0 = '/' := by
      have := dropWhile_head_false' (fun c => c ≠ '/') l.reverse (by rw [hdw]; simp)
      rw [hdw, List.headD_cons] at this
      simpa using this
    have h1 := List.takeWhile_append_dropWhile (fun c => c ≠ '/') l.reverse
    rw [hdw, hc0] at h1
    have hdec : l = rest.reverse ++
        '/' :: (l.reverse.takeWhile (fun c => c ≠ '/')).reverse := by
      have h2 := congrArg List.reverse h1
      rw [List.reverse_reverse, List.reverse_append, List.reverse_cons] at h2
      conv_lhs => rw [← h2]
      rw [List.append_assoc]
      rfl
    have hL := congrArg List.length hdec
    rw [List.length_append, List.length_cons] at hL
    have hlen : l.length - ((l.reverse.takeWhile (fun c => c ≠ '/')).reverse).length - 1 =
        rest.reverse.length := by
      omega
    rw [hlen]
    have htake : l.take rest.reverse.length = rest.reverse := by
      conv_lhs => rw [hdec]
      exact List.take_left rest.reverse _
    rw [htake]
    exact hdec

/-- `_splitparams` keeps a prefix of the path. -/
theorem splitparams_fst_prefix (l : PyStr) : (splitparams l).1 <+: l := by
  unfold splitparams
  by_cases hs : '/' ∈ l
  · rw [if_pos hs]
    dsimp only
    cases hf : findCharIdx ';' ((l.reverse.takeWhile (fun c => c ≠ '/')).reverse) with
    | none => exact List.prefix_rfl
    | some j =>
      dsimp only
      have hdec := lastSlash_decomp l hs
      rcases List.take_prefix j ((l.reverse.takeWhile (fun c => c ≠ '/')).reverse) with ⟨t, ht⟩
      refine ⟨t, ?_⟩
      conv_rhs => rw [hdec]
      rw [List.append_assoc, List.cons_append, ht]
  · rw [if_neg hs]
    cases hf : findCharIdx ';' l with
    | none => exact List.dropLast_prefix l
    | some j => exact List.take_prefix j l

theorem pyUrlparse_inv (u : PyStr) (p : ParseResult) (h : pyUrlparse u = .ok p) :
    ∃ r : SplitResult, pyUrlsplit u = .ok r ∧ p.scheme = r.scheme ∧ p.netloc = r.netloc ∧
      p.query = r.query ∧ p.path <+: r.path := by
  unfold pyUrlparse at h
  cases hs : pyUrlsplit u with
  | error e =>
    rw [hs] at h
    exact absurd h (by simp)
  | ok r =>
    rw [hs] at h
    dsimp only at h
    refine ⟨r, rfl, ?_⟩
    split at h
    · injection h with h2
      rw [← h2]
      exact ⟨rfl, rfl, rfl, splitparams_fst_prefix r.path⟩
    · injection h with h2
      rw [← h2]
      exact ⟨rfl, rfl, rfl, List.prefix_rfl⟩

theorem schemeSplitIdx_some_inv (w : PyStr) (i : Nat) (h : schemeSplitIdx w = some i) :
    0 < i ∧ asciiAlpha (w.headD ' ') = true ∧ (w.take i).all schemeChar = true ∧
      findCharIdx ':' w = some i := by
  unfold schemeSplitIdx at h
  cases hf : findCharIdx ':' w with
  | none => rw [hf] at h; exact absurd h (by simp)
  | some j =>
    rw [hf] at h
    dsimp only at h
    split at h
    · next hc =>
      injection h with h2
      subst h2
      exact ⟨hc.1, hc.2.1, hc.2.2, rfl⟩
    · exact absurd h (by simp)

/-- Shape facts delivered by the post-scheme stage of `urlsplit`. -/
theorem afterScheme_shape (sch w : PyStr) (r : SplitResult)
    (h : urlsplitAfterScheme sch w = .ok r)
    (hwtab : ∀ c ∈ w, isTabCrLf c = false) :
    r.scheme = sch ∧
    r.netloc.all netlocChar = true ∧
    ¬(('[' ∈ r.netloc ∧ ']' ∉ r.netloc) ∨ (']' ∈ r.netloc ∧ '[' ∉ r.netloc)) ∧
    '?' ∉ r.path ∧ '#' ∉ r.path ∧ '#' ∉ r.query ∧
    (∀ c ∈ r.netloc, isTabCrLf c = false) ∧ (∀ c ∈ r.path, isTabCrLf c = false) ∧
    (∀ c ∈ r.query, isTabCrLf c = false) ∧
    ((r.path = [] ∨ r.path.headD ' ' = '/') ∨ r.path <+: w) := by
  unfold urlsplitAfterScheme at h
  by_cases hb : w.take 2 = ['/', '/']
  · rw [if_pos hb] at h
    dsimp only at h
    split at h
    · exact absurd h (by simp)
    · next hbr =>
      injection h with h2
      rw [← h2]
      dsimp only
      refine ⟨rfl, List.all_takeWhile, hbr, splitFirst_fst_not_mem '?' _, ?_, ?_, ?_, ?_, ?_, ?_⟩
      · intro hm
        exact splitFirst_fst_not_mem '#' _
          ((splitFirst_fst_pref '?' _).subset hm)
      · intro hm
        exact splitFirst_fst_not_mem '#' _
          (splitFirst_snd_subset '?' _ '#' hm)
      · intro c hc
        exact hwtab c (List.drop_subset 2 w ((List.takeWhile_sublist netlocChar).subset hc))
      · intro c hc
        have h3 : c ∈ (w.drop 2).dropWhile netlocChar :=
          (splitFirst_fst_pref '#' _).subset
            ((splitFirst_fst_pref '?' _).subset hc)
        exact hwtab c (List.drop_subset 2 w ((List.dropWhile_sublist netlocChar).subset h3))
      · intro c hc
        have h3 : c ∈ (w.drop 2).dropWhile netlocChar :=
          (splitFirst_fst_pref '#' _).subset
            (splitFirst_snd_subset '?' _ c hc)
        exact hwtab c (List.drop_subset 2 w ((List.dropWhile_sublist netlocChar).subset h3))
      · left
        cases hafter : (w.drop 2).dropWhile netlocChar with
        | nil =>
          left
          rfl
        | cons c0 rest =>
          have hc0 : netlocChar c0 = false := by
            have := dropWhile_head_false' netlocChar (w.drop 2) (by rw [hafter]; simp)
            rwa [hafter, List.headD_cons] at this
          simp only [netlocChar, Bool.not_eq_false', Bool.or_eq_true, decide_eq_true_eq] at hc0
          rcases hc0 with (hc0 | hc0) | hc0
          · subst hc0
            right
            have hfst : (splitFirst '#' ('/' :: rest)).1 = '/' :: (splitFirst '#' rest).1 := by
              simp [splitFirst]
            rw [hfst]
            have hfst2 : (splitFirst '?' ('/' :: (splitFirst '#' rest).1)).1 =
                '/' :: (splitFirst '?' ((splitFirst '#' rest).1)).1 := by
              simp [splitFirst]
            rw [hfst2]
            rfl
          · subst hc0
            left
            have hfst : (splitFirst '#' ('?' :: rest)).1 = '?' :: (splitFirst '#' rest).1 := by
              simp [splitFirst]
            rw [hfst]
            have hfst2 : (splitFirst '?' ('?' :: (splitFirst '#' rest).1)) =
                ([], (splitFirst '#' rest).1) := by
              simp [splitFirst]
            rw [hfst2]
          · subst hc0
            left
            have hfst : (splitFirst '#' ('#' :: rest)) = ([], rest) := by
              simp [splitFirst]
            rw [hfst]
            rfl
  · rw [if_neg hb] at h
    injection h with h2
    rw [← h2]
    dsimp only
    refine ⟨rfl, rfl, by simp, splitFirst_fst_not_mem '?' _, ?_, ?_, ?_, ?_, ?_, ?_⟩
    · intro hm
      exact splitFirst_fst_not_mem '#' _
        ((splitFirst_fst_pref '?' _).subset hm)
    · intro hm
      exact splitFirst_fst_not_mem '#' _
        (splitFirst_snd_subset '?' _ '#' hm)
    · intro c hc
      simp at hc
    · intro c hc
      exact hwtab c ((splitFirst_fst_pref '#' _).subset
        ((splitFirst_fst_pref '?' _).subset hc))
    · intro c hc
      exact hwtab c ((splitFirst_fst_pref '#' _).subset
        (splitFirst_snd_subset '?' _ c hc))
    · right
      exact ((splitFirst_fst_pref '?' _).trans (splitFirst_fst_pref '#' _))

/-- Every successful result of `urlsplit` satisfies the shape invariant. -/
theorem pyUrlsplit_shape (u : PyStr) (r : SplitResult) (h : pyUrlsplit u = .ok r) :
    SplitShape r := by
  unfold pyUrlsplit at h
  generalize hw : (u.dropWhile isC0OrSpace).filter (fun c => !isTabCrLf c) = w at h
  have hwhead : w ≠ [] → isC0OrSpace (w.headD ' ') = false := by
    intro hne
    rw [← hw] at hne ⊢
    exact clean_head u hne
  have hwtab : ∀ c ∈ w, isTabCrLf c = false := by
    intro c hc
    rw [← hw] at hc
    have := (List.mem_filter.mp hc).2
    simpa using this
  cases hidx : schemeSplitIdx w with
  | none =>
    rw [urlsplitCore_none w hidx] at h
    obtain ⟨hsch, hnc, hbr, hqp, hhp, hhq, htn, htp, htq, hlast⟩ :=
      afterScheme_shape [] w r h hwtab
    refine ⟨by rw [hsch]; rfl, fun hne => absurd hsch hne, by rw [hsch]; rfl,
      hnc, hbr, hqp, hhp, hhq, ?_, htn, htp, htq, ?_⟩
    · intro c hc
      rw [hsch] at hc
      simp at hc
    · intro _ _
      rcases hlast with hl | hpre
      · exact Or.inl hl
      · exact Or.inr ⟨w, hidx, hpre, hwhead⟩
  | some i =>
    rw [urlsplitCore_some w i hidx] at h
    obtain ⟨h0i, hal, hall, hfci⟩ := schemeSplitIdx_some_inv w i hidx
    obtain ⟨hsch, hnc, hbr, hqp, hhp, hhq, htn, htp, htq, _⟩ :=
      afterScheme_shape ((w.take i).map Char.toLower) (w.drop (i + 1)) r h
        (fun c hc => hwtab c (List.drop_subset _ w hc))
    obtain ⟨l1, l2, hdec, hlen, _⟩ := findCharIdx_eq_some ':' w i hfci
    have hwne : w ≠ [] := by
      rw [hdec]
      simp
    have hlw : 0 < w.length := List.length_pos.mpr hwne
    have htake_ne : w.take i ≠ [] := by
      intro he
      have h1 := congrArg List.length he
      rw [List.length_take, List.length_nil] at h1
      omega
    refine ⟨?_, ?_, ?_, hnc, hbr, hqp, hhp, hhq, ?_, htn, htp, htq, ?_⟩
    · rw [hsch]
      show pyLower (pyLower (w.take i)) = pyLower (w.take i)
      exact pyLower_idem _
    · intro _
      rw [hsch]
      show asciiAlpha ((pyLower (w.take i)).headD ' ') = true
      rw [pyLower_headD _ htake_ne, headD_take w i h0i hwne]
      exact toLower_alpha _ hal
    · rw [hsch]
      rw [List.all_eq_true]
      intro c hc
      obtain ⟨b, hb, hbc⟩ := List.mem_map.mp hc
      rw [← hbc]
      exact schemeChar_toLower b (List.all_eq_true.mp hall b hb)
    · intro c hc
      rw [hsch] at hc
      obtain ⟨b, hb, hbc⟩ := List.mem_map.mp hc
      rw [← hbc]
      exact isTabCrLf_toLower b (hwtab b (List.take_subset i w hb))
    · intro h0 _
      rw [hsch] at h0
      have h1 := congrArg List.length h0
      rw [List.length_map] at h1
      have h2 : (w.take i).length = 0 := by simpa using h1
      exact absurd (List.eq_nil_of_length_eq_zero h2) htake_ne

/-- If a string has no scheme split, neither does a prefix of it followed by
an (optional) `?query` suffix. -/
theorem schemeSplitIdx_none_of_prefix (w P qp : PyStr)
    (hnone : schemeSplitIdx w = none) (hpre : P <+: w) (hPne : P ≠ [])
    (hqp : qp = [] ∨ ∃ qt, qp = '?' :: qt) :
    schemeSplitIdx (P ++ qp) = none := by
  unfold schemeSplitIdx
  cases hf : findCharIdx ':' (P ++ qp) with
  | none => rfl
  | some i =>
    dsimp only
    split
    · next hc =>
      exfalso
      obtain ⟨h0, hal, hall⟩ := hc
      obtain ⟨l1, l2, hdec, hlen, hnc⟩ := findCharIdx_eq_some ':' (P ++ qp) i hf
      rcases Nat.lt_or_ge i P.length with hi | hi
      · have hl1P : l1 ++ [':'] <+: P := by
          have ha : l1 ++ [':'] <+: P ++ qp := ⟨l2, by rw [hdec]; simp⟩
          have hb : P <+: P ++ qp := ⟨qp, rfl⟩
          refine List.prefix_of_prefix_length_le ha hb ?_
          simp
          omega
        obtain ⟨t, ht⟩ := hl1P
        obtain ⟨t3, ht3⟩ := hpre
        have hwdec : w = l1 ++ ':' :: (t ++ t3) := by
          rw [← ht3, ← ht]
          simp
        have hfw : findCharIdx ':' w = some i := by
          rw [hwdec, findCharIdx_self_append ':' l1 (t ++ t3) hnc, hlen]
        have hl1ne : l1 ≠ [] := by
          intro he
          rw [he] at hlen
          simp at hlen
          omega
        have hhead : w.headD ' ' = (P ++ qp).headD ' ' := by
          rw [hwdec, hdec, headD_append _ _ _ hl1ne, headD_append _ _ _ hl1ne]
        have htk : w.take i = (P ++ qp).take i := by
          rw [hwdec, hdec, ← hlen]
          rw [show l1 ++ ':' :: (t ++ t3) = l1 ++ (':' :: (t ++ t3)) from rfl]
          rw [show l1 ++ ':' :: l2 = l1 ++ (':' :: l2) from rfl]
          rw [List.take_left, List.take_left]
        have hcond : schemeSplitIdx w = some i := by
          unfold schemeSplitIdx
          rw [hfw]
          dsimp only
          rw [if_pos ⟨h0, by rw [hhead]; exact hal, by rw [htk]; exact hall⟩]
        rw [hnone] at hcond
        exact absurd hcond (by simp)
      · have hlens := congrArg List.length hdec
        simp at hlens
        rcases hqp with hq0 | ⟨qt, hq⟩
        · rw [hq0] at hlens
          simp at hlens
          omega
        · have hl1 : l1 = (P ++ qp).take i := by
            rw [hdec, ← hlen]
            rw [show l1 ++ ':' :: l2 = l1 ++ (':' :: l2) from rfl]
            rw [List.take_left]
          rcases Nat.eq_or_lt_of_le hi with hie | hie
          · have hl1P : l1 = P := by
              rw [hl1, ← hie, List.take_append_eq_append_take]
              simp [← hie]
            rw [hl1P] at hdec
            have hqs : qp = ':' :: l2 := List.append_cancel_left hdec
            rw [hq] at hqs
            exact absurd hqs (by simp)
          · have hqmem : '?' ∈ l1 := by
              rw [hl1, hq, List.take_append_eq_append_take]
              apply List.mem_append_right
              have : 0 < i - P.length := by omega
              cases hd : i - P.length with
              | zero => omega
              | succ k =>
                simp [List.take]
            rw [← hl1] at hall
            have hq2 := List.all_eq_true.mp hall '?' hqmem
            exact absurd hq2 (by decide)
    · rfl

/-- The `/`-prepending adjustment of `urlunsplit` is stable: rebuilding from
the adjusted path gives the same string. -/
theorem unsplit_adjPath_stable (s n P q : PyStr) :
    pyUrlunsplit s n (unsplitAdjPath s n P) q [] = pyUrlunsplit s n P q [] := by
  rw [unsplit_shape, unsplit_shape]
  by_cases hB : n ≠ [] ∨ (s ≠ [] ∧ s ∈ uses_netloc ∧ P.take 2 ≠ ['/', '/'])
  · have hadj : unsplitAdjPath s n P =
        if P ≠ [] ∧ P.take 1 ≠ ['/'] then '/' :: P else P := by
      unfold unsplitAdjPath
      rw [if_pos hB]
    by_cases hin : P ≠ [] ∧ P.take 1 ≠ ['/']
    · rw [if_pos hin] at hadj
      have hB' : n ≠ [] ∨ (s ≠ [] ∧ s ∈ uses_netloc ∧
          ('/' :: P).take 2 ≠ ['/', '/']) := by
        rcases hB with h | ⟨h1, h2, _⟩
        · exact Or.inl h
        · refine Or.inr ⟨h1, h2, ?_⟩
          intro he
          have h3 : ('/' :: P).take 2 = '/' :: P.take 1 := rfl
          rw [h3] at he
          injection he with h4 h5
          exact hin.2 h5
      have hfix : unsplitAdjPath s n ('/' :: P) = '/' :: P := by
        unfold unsplitAdjPath
        rw [if_pos hB', if_neg]
        intro hcon
        exact hcon.2 rfl
      rw [hadj]
      rw [if_pos hB', if_pos hB, hfix]
    · rw [if_neg hin] at hadj
      simp only [hadj]
  · have hadj : unsplitAdjPath s n P = P := by
      unfold unsplitAdjPath
      rw [if_neg hB]
    simp only [hadj]

theorem pyLower_eq_nil (x : PyStr) (h : pyLower x = []) : x = [] := by
  have h1 := congrArg List.length h
  unfold pyLower at h1
  rw [List.length_map, List.length_nil] at h1
  exact List.eq_nil_of_length_eq_zero h1

/-- Square brackets are fixed points of ASCII lower-casing, and nothing else
lower-cases to them. -/
theorem bracket_mem_pyLower (x : PyStr) (c : Char)
    (hc : c.toNat = 91 ∨ c.toNat = 93) : c ∈ pyLower x ↔ c ∈ x := by
  constructor
  · intro h
    obtain ⟨b, hb, hbc⟩ := List.mem_map.mp h
    rcases toLower_cases b with h1 | ⟨h1, h2, h3⟩
    · rw [← hbc, h1]
      exact hb
    · rw [← hbc] at hc
      rw [h3] at hc
      omega
  · intro h
    have hfix : Char.toLower c = c := by
      rcases toLower_cases c with h1 | ⟨h1, h2, h3⟩
      · exact h1
      · omega
    rw [← hfix]
    exact List.mem_map_of_mem Char.toLower h

theorem norm_path_cases (p : ParseResult) :
    norm_path p = ['/'] ∨ (rstripSlash (norm_path p) = norm_path p ∧ norm_path p ≠ []) := by
  unfold norm_path
  dsimp only
  split
  · exact Or.inl rfl
  · next hne => exact Or.inr ⟨rstrip_idem p.path, hne⟩

theorem norm_path_ne (p : ParseResult) : norm_path p ≠ [] := by
  rcases norm_path_cases p with h | h
  · rw [h]
    simp
  · exact h.2

theorem mem_norm_path (p : ParseResult) (a : Char) (h : a ∈ norm_path p) :
    a = '/' ∨ a ∈ p.path := by
  unfold norm_path at h
  dsimp only at h
  split at h
  · simp at h
    exact Or.inl h
  · exact Or.inr ((rstrip_pref p.path).subset h)

/-- Re-applying `p.path.rstrip('/') or '/'` to the adjusted path of a
normalized URL changes nothing. -/
theorem rstrip_or_slash_adj (s n P : PyStr)
    (hP : P = ['/'] ∨ (rstripSlash P = P ∧ P ≠ [])) :
    (if rstripSlash (unsplitAdjPath s n P) = [] then ['/']
     else rstripSlash (unsplitAdjPath s n P)) = unsplitAdjPath s n P := by
  unfold unsplitAdjPath
  rcases hP with hP | ⟨hfix, hne⟩
  · subst hP
    split <;> decide
  · split
    · split
      · next hin =>
        have h1 : rstripSlash ('/' :: P) = '/' :: P := rstrip_cons_slash P hfix hne
        rw [h1, if_neg (List.cons_ne_nil '/' P)]
      · rw [hfix, if_neg hne]
    · rw [hfix, if_neg hne]

theorem pyUrlunparse_nil_params (a b c d : PyStr) :
    pyUrlunparse a b c [] d [] = pyUrlunsplit a b c d [] := by
  unfold pyUrlunparse
  dsimp only
  rw [if_neg (by intro hc; exact hc rfl)]

theorem norm_scheme_mk (s0 n0 P0 pr q0 f0 : PyStr) :
    norm_scheme ⟨s0, n0, P0, pr, q0, f0⟩ = pyLower s0 := rfl

theorem norm_netloc_mk (s0 n0 P0 pr q0 f0 : PyStr) :
    norm_netloc ⟨s0, n0, P0, pr, q0, f0⟩ =
      if (pyLower s0 = litHttp ∧ pyEndsWith (pyLower n0) litPort80 = true) ∨
         (pyLower s0 = litHttps ∧ pyEndsWith (pyLower n0) litPort443 = true) then
        beforeLastColon (pyLower n0)
      else pyLower n0 := rfl

theorem norm_path_mk (s0 n0 P0 pr q0 f0 : PyStr) :
    norm_path ⟨s0, n0, P0, pr, q0, f0⟩ =
      if rstripSlash P0 = [] then ['/'] else rstripSlash P0 := rfl

theorem norm_path_branch (p : ParseResult) :
    (rstripSlash p.path = [] ∧ norm_path p = ['/']) ∨
    (rstripSlash p.path ≠ [] ∧ norm_path p = rstripSlash p.path) := by
  unfold norm_path
  dsimp only
  split
  · next h => exact Or.inl ⟨h, rfl⟩
  · next h => exact Or.inr ⟨h, rfl⟩

/-- Claim C4 (status: corrected).  `normalize_url` is not idempotent in
general (see the counterexample): a second pass can strip a second default
port, or re-split params exposed by the slash-stripping.  It is idempotent
for every string whose parse raises (the blanket `except` returns the input
unchanged), and for every parseable string whose lower-cased netloc does not
end in the scheme's default port, whose rebuilt path does not expose a
non-trivial params split, and whose normalized netloc and path do not hit
the empty-netloc/`//`-path corner of `urlunparse`. -/
theorem c4_amended_idempotent :
    (∀ u e, pyUrlparse u = .error e →
      normalize_url (normalize_url u) = normalize_url u) ∧
    (∀ u p, pyUrlparse u = .ok p →
      ¬(norm_scheme p = litHttp ∧ pyEndsWith (pyLower p.netloc) litPort80 = true) →
      ¬(norm_scheme p = litHttps ∧ pyEndsWith (pyLower p.netloc) litPort443 = true) →
      (norm_scheme p ∈ uses_params → ';' ∈ norm_repath p →
        splitparams (norm_repath p) = (norm_repath p, [])) →
      ¬(norm_netloc p = [] ∧ (norm_path p).take 2 = ['/', '/']) →
      normalize_url (normalize_url u) = normalize_url u) := by
  constructor
  · intro u e h
    have h1 : normalize_url u = u := by
      unfold normalize_url
      rw [h]
    rw [h1, h1]
  · intro u p hpar hH80 hH443 hHpar hH3
    obtain ⟨r, hsplit, hps, hpn, hpq, hpp⟩ := pyUrlparse_inv u p hpar
    have shape := pyUrlsplit_shape u r hsplit
    have hs_eq : norm_scheme p = pyLower r.scheme := by
      unfold norm_scheme
      rw [hps]
    have hneg : ¬((norm_scheme p = litHttp ∧ pyEndsWith (pyLower p.netloc) litPort80 = true) ∨
        (norm_scheme p = litHttps ∧ pyEndsWith (pyLower p.netloc) litPort443 = true)) := by
      rintro (hc | hc)
      · exact hH80 hc
      · exact hH443 hc
    have hnn : norm_netloc p = pyLower p.netloc := by
      unfold norm_netloc
      dsimp only
      rw [if_neg hneg]
    have hsl : pyLower (norm_scheme p) = norm_scheme p := by
      unfold norm_scheme
      exact pyLower_idem _
    have hsa : norm_scheme p ≠ [] → asciiAlpha ((norm_scheme p).headD ' ') = true := by
      intro hne
      rw [hs_eq] at hne ⊢
      have hrne : r.scheme ≠ [] := fun he => hne (by rw [he]; rfl)
      rw [pyLower_headD _ hrne]
      exact toLower_alpha _ (shape.alphaHead hrne)
    have hsc : (norm_scheme p).all schemeChar = true := by
      rw [hs_eq]
      unfold pyLower
      rw [List.all_eq_true]
      intro c hc
      obtain ⟨b, hb, hbc⟩ := List.mem_map.mp hc
      rw [← hbc]
      exact schemeChar_toLower b (List.all_eq_true.mp shape.schemeChars b hb)
    have hnc : (norm_netloc p).all netlocChar = true := by
      rw [hnn, hpn]
      unfold pyLower
      rw [List.all_eq_true]
      intro c hc
      obtain ⟨b, hb, hbc⟩ := List.mem_map.mp hc
      rw [← hbc]
      exact netlocChar_toLower b (List.all_eq_true.mp shape.netlocChars b hb)
    have hbr : ¬(('[' ∈ norm_netloc p ∧ ']' ∉ norm_netloc p) ∨
        (']' ∈ norm_netloc p ∧ '[' ∉ norm_netloc p)) := by
      rw [hnn, hpn]
      rw [bracket_mem_pyLower r.netloc '[' (by decide),
        bracket_mem_pyLower r.netloc ']' (by decide)]
      exact shape.brackets
    have hPq : '?' ∉ norm_path p := by
      intro hm
      rcases mem_norm_path p '?' hm with h | h
      · exact absurd h (by decide)
      · exact shape.noQuPath (hpp.subset h)
    have hPh : '#' ∉ norm_path p := by
      intro hm
      rcases mem_norm_path p '#' hm with h | h
      · exact absurd h (by decide)
      · exact shape.noHashPath (hpp.subset h)
    have hqh : '#' ∉ p.query := by
      rw [hpq]
      exact shape.noHashQuery
    have hts : ∀ c ∈ norm_scheme p, isTabCrLf c = false := by
      intro c hc
      rw [hs_eq] at hc
      unfold pyLower at hc
      obtain ⟨b, hb, hbc⟩ := List.mem_map.mp hc
      rw [← hbc]
      exact isTabCrLf_toLower b (shape.tabScheme b hb)
    have htn : ∀ c ∈ norm_netloc p, isTabCrLf c = false := by
      intro c hc
      rw [hnn, hpn] at hc
      unfold pyLower at hc
      obtain ⟨b, hb, hbc⟩ := List.mem_map.mp hc
      rw [← hbc]
      exact isTabCrLf_toLower b (shape.tabNetloc b hb)
    have htP : ∀ c ∈ norm_path p, isTabCrLf c = false := by
      intro c hc
      rcases mem_norm_path p c hc with h | h
      · rw [h]
        decide
      · exact shape.tabPath c (hpp.subset h)
    have htq : ∀ c ∈ p.query, isTabCrLf c = false := by
      intro c hc
      rw [hpq] at hc
      exact shape.tabQuery c hc
    have hss : norm_netloc p = [] → (norm_path p).take 2 ≠ ['/', '/'] := by
      intro h1 h2
      exact hH3 ⟨h1, h2⟩
    have hsnil : norm_scheme p = [] → r.scheme = [] := by
      intro h1
      rw [hs_eq] at h1
      exact pyLower_eq_nil _ h1
    have hnnil : norm_netloc p = [] → r.netloc = [] := by
      intro h1
      rw [hnn, hpn] at h1
      exact pyLower_eq_nil _ h1
    have hheadP : (norm_path p).headD ' ' = '/' ∨
        (norm_path p <+: r.path ∧ r.path.headD ' ' = (norm_path p).headD ' ' ∧
          r.path ≠ []) := by
      rcases norm_path_branch p with ⟨_, h⟩ | ⟨hne, h⟩
      · left
        rw [h]
        rfl
      · right
        have hpre : norm_path p <+: r.path := by
          rw [h]
          exact (rstrip_pref p.path).trans hpp
        have hnpne : norm_path p ≠ [] := norm_path_ne p
        have hrne : r.path ≠ [] := by
          intro he
          rw [he] at hpre
          exact hnpne (List.prefix_nil.mp hpre)
        exact ⟨hpre, prefix_headD _ _ hpre hnpne, hrne⟩
    have hPhead : norm_scheme p = [] → norm_netloc p = [] →
        isC0OrSpace ((norm_path p).headD ' ') = false := by
      intro h1 h2
      rcases hheadP with h | ⟨hpre, hhd, hrne⟩
      · rw [h]
        decide
      · rw [← hhd]
        rcases shape.schemeless (hsnil h1) (hnnil h2) with (h3 | h3) | ⟨w, hwn, hwp, hwh⟩
        · exact absurd h3 hrne
        · rw [h3]
          decide
        · have hwne : w ≠ [] := by
            intro he
            rw [he] at hwp
            exact hrne (List.prefix_nil.mp hwp)
          rw [← prefix_headD r.path w hwp hrne]
          exact hwh hwne
    have hnos : norm_scheme p = [] → norm_netloc p = [] →
        schemeSplitIdx (norm_path p ++ qpart p.query) = none := by
      intro h1 h2
      rcases hheadP with h | ⟨hpre, hhd, hrne⟩
      · apply schemeSplitIdx_none_of_head
        rw [headD_append _ _ _ (norm_path_ne p), h]
        decide
      · rcases shape.schemeless (hsnil h1) (hnnil h2) with (h3 | h3) | ⟨w, hwn, hwp, _⟩
        · exact absurd h3 hrne
        · apply schemeSplitIdx_none_of_head
          rw [headD_append _ _ _ (norm_path_ne p), ← hhd, h3]
          decide
        · apply schemeSplitIdx_none_of_prefix w _ _ hwn (hpre.trans hwp) (norm_path_ne p)
          unfold qpart
          split
          · exact Or.inl rfl
          · exact Or.inr ⟨p.query, rfl⟩
    have hR := urlsplit_unsplit (norm_scheme p) (norm_netloc p) (norm_path p) p.query
      hsl hsa hsc hnc hbr (norm_path_ne p) hPq hPh hqh hts htn htP htq hss hPhead hnos
    have hnorm1 : normalize_url u =
        pyUrlunsplit (norm_scheme p) (norm_netloc p) (norm_path p) p.query [] := by
      rw [normalize_of_parse u p hpar, pyUrlunparse_nil_params]
    rw [hnorm1]
    have hparse2 : pyUrlparse
        (pyUrlunsplit (norm_scheme p) (norm_netloc p) (norm_path p) p.query []) =
        .ok ⟨norm_scheme p, norm_netloc p, norm_repath p, [], p.query, []⟩ := by
      unfold pyUrlparse
      rw [hR]
      dsimp only
      split
      · next hpar2 =>
        have hsp : splitparams (norm_repath p) = (norm_repath p, []) :=
          hHpar hpar2.1 hpar2.2
        unfold norm_repath at hsp
        rw [hsp]
        rfl
      · rfl
    have hnorm2 := normalize_of_parse _ _ hparse2
    rw [hnorm2]
    have hc1 : norm_scheme (⟨norm_scheme p, norm_netloc p, norm_repath p, [],
        p.query, []⟩ : ParseResult) = norm_scheme p := by
      rw [norm_scheme_mk]
      exact hsl
    have hc2 : norm_netloc (⟨norm_scheme p, norm_netloc p, norm_repath p, [],
        p.query, []⟩ : ParseResult) = norm_netloc p := by
      rw [norm_netloc_mk, hsl, hnn, pyLower_idem, if_neg hneg]
    have hPor : norm_path p = ['/'] ∨
        (rstripSlash (norm_path p) = norm_path p ∧ norm_path p ≠ []) := by
      rcases norm_path_branch p with ⟨_, h⟩ | ⟨hne, h⟩
      · exact Or.inl h
      · exact Or.inr ⟨by rw [h]; exact rstrip_idem _, norm_path_ne p⟩
    have hc3 : norm_path (⟨norm_scheme p, norm_netloc p, norm_repath p, [],
        p.query, []⟩ : ParseResult) = norm_repath p := by
      rw [norm_path_mk]
      unfold norm_repath
      exact rstrip_or_slash_adj (norm_scheme p) (norm_netloc p) (norm_path p) hPor
    rw [hc1, hc2, hc3, pyUrlunparse_nil_params]
    dsimp only
    unfold norm_repath
    exact unsplit_adjPath_stable (norm_scheme p) (norm_netloc p) (norm_path p) p.query

/-- Witness for the amended C4 theorem: both branches applied at concrete
inputs — a string whose parse raises (mismatched bracket) and a plain http
URL satisfying the side conditions. -/
theorem c4_witness :
    normalize_url (normalize_url litC4Err) = normalize_url litC4Err ∧
    normalize_url (normalize_url litC4W) = normalize_url litC4W := by
  constructor
  · exact c4_amended_idempotent.1 litC4Err PyExc.valueError (by decide)
  · exact c4_amended_idempotent.2 litC4W
      ⟨( "http".toList), ( "ex.com".toList), ( "/a".toList), [], [], []⟩
      (by decide) (by decide) (by decide) (by decide) (by decide)
